import Mathlib

/-!
Verification of the CP / PARAFAC decomposition module
(`tensorly/decomposition/candecomp_parafac.py`).

The Python module is shallowly embedded over exact rationals.  Matrices are
row-major lists of rows (`Mat`), dense tensors are a shape together with an
entry function (`TensorQ`).  All array arithmetic performed by the module
itself (elementwise products, matrix products, sums, clips, ...) is defined
concretely below.  Services the module consumes from the array backend or
from numpy/tensorly externals (SVD, QR, linear solve, square root, the
random generator, the fused MTTKRP kernel) are fields of a `Backend` /
`NpBackend` record: the theorems quantify over them, exactly as the Python
code works for any conforming backend.
-/

abbrev Mat := List (List ℚ)

/-- Number of columns of a row-major matrix (`shape[1]` of a rectangular
matrix, read off its first row). -/
def numCols (M : Mat) : ℕ := (M.headD []).length

/-- Matrix transpose (`tl.transpose`). -/
def transposeM (M : Mat) : Mat :=
  (List.range (numCols M)).map (fun j => M.map (fun row => row.getD j 0))

/-- Dot product of two vectors. -/
def dotL (a b : List ℚ) : ℚ := (List.zipWith (· * ·) a b).sum

/-- Matrix product (`tl.dot`). -/
def dotM (A B : Mat) : Mat :=
  A.map (fun row => (transposeM B).map (fun col => dotL row col))

/-- Elementwise product of two equally sized vectors. -/
def zipMul (a b : List ℚ) : List ℚ := List.zipWith (· * ·) a b

/-- Elementwise quotient of two equally sized vectors. -/
def zipDiv (a b : List ℚ) : List ℚ := List.zipWith (· / ·) a b

/-- Elementwise (Hadamard) product of two matrices (`*` on arrays). -/
def hadamardM (A B : Mat) : Mat := List.zipWith zipMul A B

/-- Elementwise quotient of two matrices (`/` on arrays). -/
def divM (A B : Mat) : Mat := List.zipWith zipDiv A B

/-- Elementwise difference of two matrices (`-` on arrays). -/
def subM (A B : Mat) : Mat := List.zipWith (List.zipWith (· - ·)) A B

/-- Elementwise sum of two matrices (`+` on arrays). -/
def addM (A B : Mat) : Mat := List.zipWith (List.zipWith (· + ·)) A B

/-- `tl.clip(M, a_min=eps, a_max=None)`: clip every entry from below. -/
def clipMin (eps : ℚ) (M : Mat) : Mat := M.map (List.map (fun x => max x eps))

/-- `tl.abs`, elementwise absolute value. -/
def absM (M : Mat) : Mat := M.map (List.map (fun x => |x|))

/-- `np.ones((n, m))` / `tl.ones((n, m))`. -/
def onesM (n m : ℕ) : Mat := List.replicate n (List.replicate m 1)

/-- `np.identity(r)`. -/
def identityM (r : ℕ) : Mat :=
  (List.range r).map (fun i => (List.range r).map (fun j => if i = j then (1 : ℚ) else 0))

/-- `tl.sum(M)`: sum of all entries of a matrix. -/
def sumEntries (M : Mat) : ℚ := (M.map List.sum).sum

/-- Multiply a matrix by a scalar. -/
def scaleM (c : ℚ) (M : Mat) : Mat := M.map (List.map (fun x => c * x))

/-- Row-broadcast product `M * v` (numpy broadcasting of a length-`R` row
vector against an `(n, R)` matrix): every row is multiplied elementwise
by `v`. -/
def rowScaleM (M : Mat) (v : List ℚ) : Mat := M.map (fun row => zipMul row v)

/-- `M[:, :k]`: keep the first `k` columns. -/
def takeCols (k : ℕ) (M : Mat) : Mat := M.map (List.take k)

/-- `tl.concatenate([A, B], axis=1)`: horizontal concatenation. -/
def hconcat (A B : Mat) : Mat := List.zipWith (· ++ ·) A B

/-- Gram matrix `tl.dot(tl.transpose(f), f)`. -/
def gramM (f : Mat) : Mat := dotM (transposeM f) f

/-- Sum of squares of all entries of a matrix. -/
def sumSqM (M : Mat) : ℚ := (M.map (fun row => (row.map (fun x => x ^ 2)).sum)).sum

/-- A matrix is elementwise non-negative. -/
def MatNonneg (M : Mat) : Prop := ∀ row ∈ M, ∀ x ∈ row, 0 ≤ x

/-- Boolean check that every entry of a matrix is non-negative. -/
def matNonnegB (M : Mat) : Bool := M.all (fun row => row.all (fun x => 0 ≤ x))

/-- Boolean check that every matrix in a list is elementwise non-negative. -/
def allNonnegB (ms : List Mat) : Bool := ms.all matNonnegB

theorem matNonnegB_eq_true_iff (M : Mat) : matNonnegB M = true ↔ MatNonneg M := by
  simp [matNonnegB, MatNonneg, List.all_eq_true]

/-! ### Dense tensors -/

/-- A dense tensor: a shape (one extent per mode) and an entry function.
`entry ix` is only meaningful for `ix` an index tuple within `shape`. -/
structure TensorQ where
  shape : List ℕ
  entry : List ℕ → ℚ

/-- All index tuples of a given shape, in row-major (lexicographic) order. -/
def allIdx : List ℕ → List (List ℕ)
  | [] => [[]]
  | s :: rest => (List.range s).flatMap (fun i => (allIdx rest).map (fun t => i :: t))

/-- Sum of squares of all entries of a tensor (`tl.norm(tensor, 2) ** 2`). -/
def sumSqT (t : TensorQ) : ℚ := ((allIdx t.shape).map (fun ix => (t.entry ix) ^ 2)).sum

/-- `tl.ndim(tensor)`: the number of modes. -/
def ndimT (t : TensorQ) : ℕ := t.shape.length

/-! ### Backend services

The array backend and numpy primitives consumed by the module (spec §6:
SVD registry, QR, linear solve, square root, random generation, and the
fused `unfolding_dot_khatri_rao` kernel imported from `tensorly.tenalg`).
The theorems hold for every such record. -/

structure Backend where
  /-- `tl.SVD_FUNS`: registry of named SVD routines.  Each routine takes a
  matrix and `n_eigenvecs` and returns `(U, S, V)`. -/
  svdFuns : List (String × (Mat → ℕ → Mat × List ℚ × Mat))
  /-- `tl.get_backend()`. -/
  backendName : String
  /-- `rng.random_sample((rows, cols))`; the first argument is a call
  counter distinguishing successive draws from the generator. -/
  randomSample : ℕ → ℕ → ℕ → Mat
  /-- `rng.randint(0, high, size=n)`; the first argument is a call counter,
  then the exclusive upper bound, then the number of draws. -/
  randint : ℕ → ℕ → ℕ → List ℕ
  /-- `tl.solve(A, B)`: solution `X` of `A X = B`. -/
  solve : Mat → Mat → Mat
  /-- `tl.qr(M) = (Q, R)`. -/
  qr : Mat → Mat × Mat
  /-- `tl.sqrt` on scalars (used through `tl.norm`). -/
  sqrtFn : ℚ → ℚ
  /-- `tl.tenalg.unfolding_dot_khatri_rao(tensor, factors, mode)`. -/
  mttkrp : TensorQ → List Mat → ℕ → Mat

/-- `tl.norm(M, axis=0)` at column `c`: squared column norm, before the
backend square root is applied. -/
def colSumSq (M : Mat) (c : ℕ) : ℚ := (M.map (fun row => (row.getD c 0) ^ 2)).sum

/-- `tl.norm(factor, axis=0)`: the vector of column Euclidean norms,
using the backend square root. -/
def scalesOf (B : Backend) (M : Mat) : List ℚ :=
  (List.range (numCols M)).map (fun c => B.sqrtFn (colSumSq M c))

/-- `tl.where(scales == 0, ones, scales)`: replace zero norms by one. -/
def scalesNonZero (s : List ℚ) : List ℚ := s.map (fun x => if x = 0 then 1 else x)

/-- Divide every row of `M` elementwise by the vector `s`
(`factor / scales_non_zero`). -/
def divByScales (M : Mat) (s : List ℚ) : Mat := M.map (fun row => zipDiv row s)

/-- `normalize_factors(factors)` (lines 18-56 of the source): walks the
factor list once, accumulating the per-column norms into `weights` and
appending each factor divided by its (zero-guarded) column norms. -/
def normalize_factors (B : Backend) (factors : List Mat) : List Mat × List ℚ :=
  let rank := numCols (factors.headD [])
  factors.foldl
    (fun acc factor =>
      let scales := scalesOf B factor
      let weights := zipMul acc.2 scales
      let snz := scalesNonZero scales
      (acc.1 ++ [divByScales factor snz], weights))
    ([], List.replicate rank 1)

/-! ### Generic list helpers -/

theorem mem_of_mem_zipWith {α β γ : Type} {f : α → β → γ} :
    ∀ {l₁ : List α} {l₂ : List β} {c : γ}, c ∈ List.zipWith f l₁ l₂ →
      ∃ a ∈ l₁, ∃ b ∈ l₂, c = f a b := by
  intro l₁
  induction l₁ with
  | nil => intro l₂ c h; simp at h
  | cons a t ih =>
    intro l₂ c h
    cases l₂ with
    | nil => simp at h
    | cons b t₂ =>
      simp only [List.zipWith, List.mem_cons] at h
      rcases h with h | h
      · exact ⟨a, by simp, b, by simp, h⟩
      · rcases ih h with ⟨x, hx, y, hy, hc⟩
        exact ⟨x, by simp [hx], y, by simp [hy], hc⟩

theorem mem_of_mem_set {α : Type} :
    ∀ {l : List α} {i : ℕ} {x a : α}, a ∈ l.set i x → a = x ∨ a ∈ l := by
  intro l
  induction l with
  | nil => intro i x a h; simp at h
  | cons b t ih =>
    intro i x a h
    cases i with
    | zero =>
      simp only [List.set, List.mem_cons] at h
      rcases h with h | h
      · exact Or.inl h
      · exact Or.inr (by simp [h])
    | succ j =>
      simp only [List.set, List.mem_cons] at h
      rcases h with h | h
      · exact Or.inr (by simp [h])
      · rcases ih h with h | h
        · exact Or.inl h
        · exact Or.inr (by simp [h])

theorem getD_map_range {α : Type} [Inhabited α] (g : ℕ → α) {n i : ℕ} (h : i < n) (d : α) :
    ((List.range n).map g).getD i d = g i := by
  rw [List.getD_eq_getElem?_getD, List.getElem?_map, List.getElem?_range h]
  rfl

theorem getD_map_of_lt {α β : Type} (f : α → β) (l : List α) {i : ℕ} (h : i < l.length)
    (da : α) (d : β) : (l.map f).getD i d = f (l.getD i da) := by
  rw [List.getD_eq_getElem?_getD, List.getElem?_map,
    List.getElem?_eq_getElem h, List.getD_eq_getElem l da h]
  rfl

theorem getD_of_length_le {α : Type} (l : List α) {i : ℕ} (h : l.length ≤ i) (d : α) :
    l.getD i d = d := by
  rw [List.getD_eq_getElem?_getD, List.getElem?_eq_none h]
  rfl

theorem getD_zipWith_of_lt (f : ℚ → ℚ → ℚ) :
    ∀ (a b : List ℚ) (i : ℕ), i < a.length → i < b.length →
      (List.zipWith f a b).getD i 0 = f (a.getD i 0) (b.getD i 0) := by
  intro a
  induction a with
  | nil => intro b i h; simp at h
  | cons x t ih =>
    intro b i h₁ h₂
    cases b with
    | nil => simp at h₂
    | cons y t₂ =>
      cases i with
      | zero => rfl
      | succ j =>
        simp only [List.length_cons, Nat.succ_lt_succ_iff] at h₁ h₂
        simpa [List.zipWith, List.getD] using ih t₂ j h₁ h₂

theorem append_getD_left {α : Type} (l₁ l₂ : List α) {i : ℕ} (h : i < l₁.length) (d : α) :
    (l₁ ++ l₂).getD i d = l₁.getD i d := by
  rw [List.getD_eq_getElem?_getD, List.getElem?_append_left h, ← List.getD_eq_getElem?_getD]

theorem length_zipMul (a b : List ℚ) : (zipMul a b).length = min a.length b.length := by
  simp [zipMul]

/-! ### Closed forms for `normalize_factors` -/

/-- One step of the `normalize_factors` loop applied to a single factor. -/
def normalizeOne (B : Backend) (M : Mat) : Mat :=
  divByScales M (scalesNonZero (scalesOf B M))

theorem normalize_factors_fold (B : Backend) :
    ∀ (fs : List Mat) (acc : List Mat) (w : List ℚ),
      fs.foldl
        (fun acc factor =>
          let scales := scalesOf B factor
          let weights := zipMul acc.2 scales
          let snz := scalesNonZero scales
          (acc.1 ++ [divByScales factor snz], weights))
        (acc, w)
      = (acc ++ fs.map (normalizeOne B), fs.foldl (fun w M => zipMul w (scalesOf B M)) w) := by
  intro fs
  induction fs with
  | nil => intro acc w; simp
  | cons M t ih =>
    intro acc w
    simp only [List.foldl_cons, List.map_cons]
    rw [ih]
    simp [normalizeOne]

theorem normalize_factors_fst (B : Backend) (fs : List Mat) :
    (normalize_factors B fs).1 = fs.map (normalizeOne B) := by
  unfold normalize_factors
  rw [normalize_factors_fold]
  simp

theorem normalize_factors_snd (B : Backend) (fs : List Mat) :
    (normalize_factors B fs).2 =
      fs.foldl (fun w M => zipMul w (scalesOf B M))
        (List.replicate (numCols (fs.headD [])) 1) := by
  unfold normalize_factors
  rw [normalize_factors_fold]

theorem getD_mem_of_lt {α : Type} (l : List α) {i : ℕ} (h : i < l.length) (d : α) :
    l.getD i d ∈ l := by
  rw [List.getD_eq_getElem _ _ h]
  exact List.getElem_mem h

theorem sum_nonneg_all_zero :
    ∀ {l : List ℚ}, (∀ x ∈ l, 0 ≤ x) → l.sum = 0 → ∀ x ∈ l, x = 0 := by
  intro l
  induction l with
  | nil => intro _ _ x hx; simp at hx
  | cons a t ih =>
    intro hpos hsum x hx
    have ha : 0 ≤ a := hpos a (by simp)
    have ht : 0 ≤ t.sum := List.sum_nonneg (fun y hy => hpos y (by simp [hy]))
    have hsum' : a + t.sum = 0 := by simpa using hsum
    have ha0 : a = 0 := by linarith
    have ht0 : t.sum = 0 := by linarith
    rcases List.mem_cons.mp hx with h | h
    · simpa [h] using ha0
    · exact ih (fun y hy => hpos y (by simp [hy])) ht0 x h

/-- A matrix is a non-empty rectangular `(·, R)` array. -/
def Rect (R : ℕ) (M : Mat) : Prop := M ≠ [] ∧ ∀ row ∈ M, row.length = R

instance (R : ℕ) (M : Mat) : Decidable (Rect R M) := by
  unfold Rect; infer_instance

/-- `factors[0].shape[1]`: the column count of the first factor. -/
def rankF (fs : List Mat) : ℕ := numCols (fs.headD [])

theorem numCols_of_rect {R : ℕ} {M : Mat} (h : Rect R M) : numCols M = R := by
  rcases h with ⟨hne, hrow⟩
  cases M with
  | nil => exact absurd rfl hne
  | cons row t => exact hrow row (by simp)

/-! ### Reconstruction (modelled external)

`kruskal_to_tensor` is imported from `tensorly.kruskal_tensor`, outside this
module.  Modelled from the spec: "the canonical-form reconstruction routine
that multiplies factors back into a dense tensor" — the entry of the
reconstruction at index tuple `ix` is the sum over the `rank` components of
the product over modes of `factors[k][ix[k], r]`; the weighted form scales
component `r` by `weights[r]`. -/

/-- Product over modes of the factor entries of component `r` at index `ix`. -/
def prodEntriesAt (factors : List Mat) (ix : List ℕ) (r : ℕ) : ℚ :=
  ((factors.zip ix).map (fun p => (p.1.getD p.2 []).getD r 0)).prod

/-- Modelled from the spec: entry of the CP reconstruction with `rank`
components (`kruskal_to_tensor`, external to this module). -/
def kruskalEntry (rank : ℕ) (factors : List Mat) (ix : List ℕ) : ℚ :=
  ((List.range rank).map (prodEntriesAt factors ix)).sum

/-- Modelled from the spec: `kruskal_to_tensor(factors)` at `ix`, with the
rank read off the first factor as the source does elsewhere. -/
def kruskal_to_tensor (factors : List Mat) (ix : List ℕ) : ℚ :=
  kruskalEntry (rankF factors) factors ix

/-- Modelled from the spec: reconstruction from normalized factors plus a
weights vector (component `r` scaled by `weights[r]`). -/
def kruskalWeightedEntry (rank : ℕ) (w : List ℚ) (factors : List Mat) (ix : List ℕ) : ℚ :=
  ((List.range rank).map (fun r => w.getD r 0 * prodEntriesAt factors ix r)).sum

theorem scalesOf_length (B : Backend) (M : Mat) : (scalesOf B M).length = numCols M := by
  simp [scalesOf]

theorem scalesOf_getD (B : Backend) (M : Mat) {r : ℕ} (h : r < numCols M) :
    (scalesOf B M).getD r 0 = B.sqrtFn (colSumSq M r) := by
  unfold scalesOf
  exact getD_map_range _ h 0

theorem scalesNonZero_getD (s : List ℚ) {r : ℕ} (h : r < s.length) :
    (scalesNonZero s).getD r 0 = if s.getD r 0 = 0 then 1 else s.getD r 0 := by
  unfold scalesNonZero
  rw [getD_map_of_lt _ _ h 0 0]

theorem divByScales_getD (M : Mat) (s : List ℚ) (i r : ℕ)
    (hrow : ∀ row ∈ M, r < row.length) (hs : r < s.length) :
    ((divByScales M s).getD i []).getD r 0 = (M.getD i []).getD r 0 / s.getD r 0 := by
  by_cases hi : i < M.length
  · unfold divByScales
    rw [getD_map_of_lt _ _ hi [] []]
    have hmem : M.getD i [] ∈ M := getD_mem_of_lt M hi []
    exact getD_zipWith_of_lt _ _ _ _ (hrow _ hmem) hs
  · push_neg at hi
    have h₁ : (divByScales M s).getD i [] = [] := by
      apply getD_of_length_le
      simpa [divByScales] using hi
    have h₂ : (M.getD i []) = [] := getD_of_length_le M hi []
    rw [h₁, h₂]
    simp

theorem zipMul_getD (a b : List ℚ) {i : ℕ} (h₁ : i < a.length) (h₂ : i < b.length) :
    (zipMul a b).getD i 0 = a.getD i 0 * b.getD i 0 :=
  getD_zipWith_of_lt _ a b i h₁ h₂

theorem getD_replicate_of_lt {α : Type} [Inhabited α] (x d : α) {n i : ℕ} (h : i < n) :
    (List.replicate n x).getD i d = x := by
  rw [List.getD_eq_getElem _ _ (by simpa using h)]
  simp

theorem foldl_zipMul_getD :
    ∀ (L : List (List ℚ)) (init : List ℚ) (r : ℕ),
      (∀ l ∈ L, r < l.length) → r < init.length →
      (L.foldl zipMul init).getD r 0 = init.getD r 0 * (L.map (fun l => l.getD r 0)).prod := by
  intro L
  induction L with
  | nil => intro init r _ _; simp
  | cons l t ih =>
    intro init r hL hinit
    have hl : r < l.length := hL l (by simp)
    have hlen : r < (zipMul init l).length := by
      rw [length_zipMul]; exact lt_min hinit hl
    simp only [List.foldl_cons, List.map_cons, List.prod_cons]
    rw [ih (zipMul init l) r (fun x hx => hL x (by simp [hx])) hlen,
      zipMul_getD init l hinit hl]
    ring

theorem weights_getD (B : Backend) (fs : List Mat)
    (hrect : ∀ M ∈ fs, Rect (rankF fs) M) {r : ℕ} (hr : r < rankF fs) :
    (normalize_factors B fs).2.getD r 0
      = (fs.map (fun M => B.sqrtFn (colSumSq M r))).prod := by
  rw [normalize_factors_snd]
  have h1 : fs.foldl (fun w M => zipMul w (scalesOf B M))
        (List.replicate (numCols (fs.headD [])) 1)
      = (fs.map (scalesOf B)).foldl zipMul (List.replicate (numCols (fs.headD [])) 1) := by
    rw [List.foldl_map]
  have hlists : ∀ l ∈ fs.map (scalesOf B), r < l.length := by
    intro l hl
    rcases List.mem_map.mp hl with ⟨M, hM, rfl⟩
    rw [scalesOf_length, numCols_of_rect (hrect M hM)]
    exact hr
  have hr' : r < numCols (fs.headD []) := hr
  have hinit : r < (List.replicate (numCols (fs.headD [])) (1 : ℚ)).length := by
    simpa using hr'
  rw [h1, foldl_zipMul_getD _ _ r hlists hinit, getD_replicate_of_lt _ _ hr', one_mul,
    List.map_map]
  congr 1
  apply List.map_congr_left
  intro M hM
  simp only [Function.comp]
  exact scalesOf_getD B M (by rw [numCols_of_rect (hrect M hM)]; exact hr)

theorem scales_telescope (B : Backend) (R r : ℕ) (hr : r < R) :
    ∀ (fs : List Mat) (ix : List ℕ),
      fs.length ≤ ix.length →
      (∀ M ∈ fs, Rect R M) →
      (∀ M ∈ fs, B.sqrtFn (colSumSq M r) = 0 → ∀ i, (M.getD i []).getD r 0 = 0) →
      (fs.map (fun M => B.sqrtFn (colSumSq M r))).prod *
          ((fs.zip ix).map (fun p => ((normalizeOne B p.1).getD p.2 []).getD r 0)).prod
        = ((fs.zip ix).map (fun p => (p.1.getD p.2 []).getD r 0)).prod := by
  intro fs
  induction fs with
  | nil => intro ix _ _ _; simp
  | cons M t ih =>
    intro ix hlen hrect hzero
    cases ix with
    | nil => simp at hlen
    | cons j tix =>
      have hlen' : t.length ≤ tix.length := by simpa using hlen
      have hR : Rect R M := hrect M (by simp)
      have hcols : numCols M = R := numCols_of_rect hR
      have hentry : ((normalizeOne B M).getD j []).getD r 0
          = (M.getD j []).getD r 0 /
              (if B.sqrtFn (colSumSq M r) = 0 then 1 else B.sqrtFn (colSumSq M r)) := by
        unfold normalizeOne
        rw [divByScales_getD M _ j r (fun row hrow => by rw [hR.2 row hrow]; exact hr)
          (by simp [scalesNonZero, scalesOf_length, hcols]; exact hr)]
        rw [scalesNonZero_getD _ (by rw [scalesOf_length, hcols]; exact hr),
          scalesOf_getD B M (by rw [hcols]; exact hr)]
      simp only [List.map_cons, List.prod_cons, List.zip_cons_cons]
      rw [hentry]
      by_cases h0 : B.sqrtFn (colSumSq M r) = 0
      · have he : (M.getD j []).getD r 0 = 0 := hzero M (by simp) h0 j
        rw [h0, he]
        ring
      · rw [if_neg h0,
          ← ih tix hlen' (fun X hX => hrect X (by simp [hX]))
            (fun X hX h => hzero X (by simp [hX]) h)]
        field_simp
        ring

theorem prodEntriesAt_map (g : Mat → Mat) (factors : List Mat) (ix : List ℕ) (r : ℕ) :
    prodEntriesAt (factors.map g) ix r
      = ((factors.zip ix).map (fun p => ((g p.1).getD p.2 []).getD r 0)).prod := by
  unfold prodEntriesAt
  rw [List.zip_map_left, List.map_map]
  refine congrArg List.prod (List.map_congr_left ?_)
  intro p hp
  rcases p with ⟨M, i⟩
  rfl

/-- A concrete backend instance used to instantiate the universally
quantified theorems on explicit inputs. -/
def stubBackend : Backend where
  svdFuns := [("numpy_svd", fun M _ => (M, [], M))]
  backendName := "numpy"
  randomSample := fun _ n m => onesM n m
  randint := fun _ _ n => List.replicate n 0
  solve := fun _ M => M
  qr := fun M => (M, M)
  sqrtFn := id
  mttkrp := fun _ fs _ => fs.headD []

/-- C6: reconstructing from the `(normalized factors, weights)` pair returned
by `normalize_factors` gives, entry by entry, exactly the same tensor as
reconstructing from the original unnormalized factors.  Holds for every
backend square root that only vanishes at zero, every rectangular rank-`R`
factor list, and every entry index. -/
theorem normalize_factors_right_inverse (B : Backend) (factors : List Mat) (ix : List ℕ)
    (hrect : ∀ M ∈ factors, Rect (rankF factors) M)
    (hlen : factors.length ≤ ix.length)
    (hsq : ∀ x : ℚ, 0 ≤ x → B.sqrtFn x = 0 → x = 0) :
    kruskalWeightedEntry (rankF factors) (normalize_factors B factors).2
        (normalize_factors B factors).1 ix
      = kruskalEntry (rankF factors) factors ix := by
  unfold kruskalWeightedEntry kruskalEntry
  congr 1
  apply List.map_congr_left
  intro r hrr
  have hr : r < rankF factors := List.mem_range.mp hrr
  have hzero : ∀ M ∈ factors, B.sqrtFn (colSumSq M r) = 0 →
      ∀ i, (M.getD i []).getD r 0 = 0 := by
    intro M hM h0 i
    have hnn : 0 ≤ colSumSq M r := by
      unfold colSumSq
      apply List.sum_nonneg
      intro x hx
      rcases List.mem_map.mp hx with ⟨row, _, rfl⟩
      positivity
    have hcs : colSumSq M r = 0 := hsq _ hnn h0
    by_cases hi : i < M.length
    · have hmem : M.getD i [] ∈ M := getD_mem_of_lt M hi []
      have hsq2 : ((M.getD i []).getD r 0) ^ 2 = 0 := by
        refine sum_nonneg_all_zero ?_ hcs _ (List.mem_map.mpr ⟨M.getD i [], hmem, rfl⟩)
        intro x hx
        rcases List.mem_map.mp hx with ⟨row, _, rfl⟩
        positivity
      exact pow_eq_zero_iff (two_ne_zero) |>.mp hsq2
    · push_neg at hi
      rw [getD_of_length_le M hi]
      rfl
  rw [weights_getD B factors hrect hr, normalize_factors_fst, prodEntriesAt_map]
  unfold prodEntriesAt
  exact scales_telescope B (rankF factors) r hr factors ix hlen hrect hzero

theorem normalize_factors_right_inverse_witness :
    ((∀ M ∈ ([[[0, 2]], [[3, 4]]] : List Mat), Rect (rankF [[[0, 2]], [[3, 4]]]) M)
      ∧ ([[[0, 2]], [[3, 4]]] : List Mat).length ≤ ([0, 0] : List ℕ).length)
    ∧ kruskalWeightedEntry (rankF [[[0, 2]], [[3, 4]]])
        (normalize_factors stubBackend [[[0, 2]], [[3, 4]]]).2
        (normalize_factors stubBackend [[[0, 2]], [[3, 4]]]).1 [0, 0]
      = kruskalEntry (rankF [[[0, 2]], [[3, 4]]]) [[[0, 2]], [[3, 4]]] [0, 0] :=
  ⟨⟨by decide, by decide⟩,
    normalize_factors_right_inverse stubBackend [[[0, 2]], [[3, 4]]] [0, 0]
      (by decide) (by decide) (fun _ _ h => h)⟩

/-- C7: `normalize_factors` never divides by zero — every entry of the
zero-guarded divisor vector is non-zero — and for a factor column of zero
Euclidean norm the column is returned unchanged while the corresponding
weight entry is zero. -/
theorem normalize_factors_zero_norm_guard (B : Backend) (factors : List Mat)
    (hsq0 : B.sqrtFn 0 = 0)
    (hrect : ∀ M ∈ factors, Rect (rankF factors) M) :
    (∀ M ∈ factors, ∀ s ∈ scalesNonZero (scalesOf B M), s ≠ 0)
    ∧ ∀ k, k < factors.length → ∀ r, r < rankF factors →
        colSumSq (factors.getD k []) r = 0 →
        (∀ i, (((normalize_factors B factors).1.getD k []).getD i []).getD r 0
            = ((factors.getD k []).getD i []).getD r 0)
        ∧ (normalize_factors B factors).2.getD r 0 = 0 := by
  constructor
  · intro M _ s hs
    rcases List.mem_map.mp hs with ⟨x, _, rfl⟩
    by_cases hx : x = 0
    · simp [hx]
    · simp [hx]
  · intro k hk r hr h0
    have hM : factors.getD k [] ∈ factors := getD_mem_of_lt factors hk []
    have hRect : Rect (rankF factors) (factors.getD k []) := hrect _ hM
    have hcols : numCols (factors.getD k []) = rankF factors := numCols_of_rect hRect
    have hscale : B.sqrtFn (colSumSq (factors.getD k []) r) = 0 := by rw [h0]; exact hsq0
    constructor
    · intro i
      rw [normalize_factors_fst, getD_map_of_lt (normalizeOne B) factors hk [] []]
      unfold normalizeOne
      rw [divByScales_getD _ _ i r (fun row hrow => by rw [hRect.2 row hrow]; exact hr)
        (by simp only [scalesNonZero, List.length_map, scalesOf_length]
            rw [hcols]; exact hr)]
      rw [scalesNonZero_getD _ (by rw [scalesOf_length, hcols]; exact hr),
        scalesOf_getD B _ (by rw [hcols]; exact hr), hscale]
      simp
    · rw [weights_getD B factors hrect hr]
      exact List.prod_eq_zero (List.mem_map.mpr ⟨factors.getD k [], hM, hscale⟩)

theorem normalize_factors_zero_norm_guard_witness :
    (stubBackend.sqrtFn 0 = 0
      ∧ (∀ M ∈ ([[[0, 2]], [[3, 4]]] : List Mat), Rect (rankF [[[0, 2]], [[3, 4]]]) M))
    ∧ ((∀ M ∈ ([[[0, 2]], [[3, 4]]] : List Mat),
          ∀ s ∈ scalesNonZero (scalesOf stubBackend M), s ≠ 0)
       ∧ ∀ k, k < ([[[0, 2]], [[3, 4]]] : List Mat).length →
          ∀ r, r < rankF [[[0, 2]], [[3, 4]]] →
          colSumSq (([[[0, 2]], [[3, 4]]] : List Mat).getD k []) r = 0 →
          (∀ i, (((normalize_factors stubBackend [[[0, 2]], [[3, 4]]]).1.getD k []).getD i []).getD r 0
              = ((([[[0, 2]], [[3, 4]]] : List Mat).getD k []).getD i []).getD r 0)
          ∧ (normalize_factors stubBackend [[[0, 2]], [[3, 4]]]).2.getD r 0 = 0) :=
  ⟨⟨rfl, by decide⟩,
    normalize_factors_zero_norm_guard stubBackend [[[0, 2]], [[3, 4]]] rfl (by decide)⟩

/-! ### Khatri-Rao products and row sampling -/

/-- `_KhatriRao(A, B)` (lines 476-477 of the source):
`np.repeat(A, B.shape[0], axis=0) * np.tile(B, (A.shape[0], 1))`.
Row `i * B.rows + j` is the elementwise product of row `i` of `A` with
row `j` of `B`. -/
def KhatriRao2 (A B : Mat) : Mat :=
  A.flatMap (fun a => B.map (fun b => zipMul a b))

/-- Modelled from the spec: the column-wise Khatri-Rao product of a list of
matrices (`tensorly.tenalg.khatri_rao`, imported from outside this module).
A single matrix is returned unchanged; row counts multiply, with the first
matrix most significant, matching the binary `_KhatriRao` of the source. -/
def khatri_rao : List Mat → Mat
  | [] => [[]]
  | [A] => A
  | A :: rest => KhatriRao2 A (khatri_rao rest)

theorem zipMul_assoc : ∀ a b c : List ℚ, zipMul (zipMul a b) c = zipMul a (zipMul b c) := by
  intro a
  induction a with
  | nil => intro b c; simp [zipMul]
  | cons x t ih =>
    intro b c
    cases b with
    | nil => simp [zipMul]
    | cons y tb =>
      cases c with
      | nil => simp [zipMul]
      | cons z tc =>
        have h := ih tb tc
        simp only [zipMul] at h
        simp only [zipMul, List.zipWith_cons_cons, mul_assoc, h]

theorem zipMul_ones_left : ∀ v : List ℚ, zipMul (List.replicate v.length 1) v = v := by
  intro v
  induction v with
  | nil => rfl
  | cons x t ih => simp [zipMul, List.replicate] at ih ⊢; exact ih

theorem zipMul_ones_right : ∀ v : List ℚ, zipMul v (List.replicate v.length 1) = v := by
  intro v
  induction v with
  | nil => rfl
  | cons x t ih => simp [zipMul, List.replicate] at ih ⊢; exact ih

theorem foldl_zipMul_shift (R : ℕ) :
    ∀ (L : List (List ℚ)) (x : List ℚ), (∀ l ∈ L, l.length = R) → x.length = R →
      L.foldl zipMul x = zipMul x (L.foldl zipMul (List.replicate R 1)) := by
  intro L
  induction L with
  | nil =>
    intro x _ hx
    simp only [List.foldl_nil]
    rw [← hx, zipMul_ones_right]
  | cons l t ih =>
    intro x hL hx
    have hl : l.length = R := hL l (by simp)
    have hxl : (zipMul x l).length = R := by rw [length_zipMul, hx, hl]; simp
    simp only [List.foldl_cons]
    rw [ih (zipMul x l) (fun y hy => hL y (by simp [hy])) hxl,
      ih (zipMul (List.replicate R 1) l) (fun y hy => hL y (by simp [hy]))
        (by rw [length_zipMul, hl]; simp)]
    rw [← hl, zipMul_ones_left, hl]
    exact zipMul_assoc x l (t.foldl zipMul (List.replicate R 1))

theorem length_flatMap_const {α β : Type} (l : List α) (f : α → List β) (c : ℕ)
    (h : ∀ a ∈ l, (f a).length = c) : (l.flatMap f).length = l.length * c := by
  induction l with
  | nil => simp
  | cons a t ih =>
    simp only [List.flatMap_cons, List.length_append, List.length_cons,
      h a (by simp), ih (fun x hx => h x (by simp [hx]))]
    ring

theorem append_getD_right {α : Type} (l₁ l₂ : List α) (i : ℕ) (d : α) :
    (l₁ ++ l₂).getD (l₁.length + i) d = l₂.getD i d := by
  rw [List.getD_eq_getElem?_getD, List.getElem?_append_right (by omega)]
  simp [List.getD_eq_getElem?_getD]

theorem flatMap_getD_const {α : Type} [Inhabited α] (l : List α) (f : α → List (List ℚ)) (c : ℕ)
    (h : ∀ a ∈ l, (f a).length = c) :
    ∀ (i j : ℕ), i < l.length → j < c →
      (l.flatMap f).getD (i * c + j) [] = (f (l.getD i default)).getD j [] := by
  induction l with
  | nil => intro i j hi _; simp at hi
  | cons a t ih =>
    intro i j hi hj
    cases i with
    | zero =>
      simp only [List.flatMap_cons, Nat.zero_mul, Nat.zero_add]
      rw [append_getD_left _ _ (by rw [h a (by simp)]; exact hj)]
      rfl
    | succ i' =>
      have harith : (i' + 1) * c + j = (f a).length + (i' * c + j) := by
        rw [h a (by simp)]; ring
      simp only [List.flatMap_cons, harith]
      rw [append_getD_right]
      have hi' : i' < t.length := by simpa using hi
      rw [ih (fun x hx => h x (by simp [hx])) i' j hi' hj]
      rfl

/-- Scalar mixed-radix flattening over (size, index) pairs:
`idx = ((i1*s2 + i2)*s3 + i3)...`, first matrix most significant. -/
def flatIdx (sizes is : List ℕ) : ℕ :=
  (sizes.zip is).foldl (fun a p => a * p.1 + p.2) 0

theorem foldl_flat_shift :
    ∀ (L : List (ℕ × ℕ)) (a : ℕ),
      L.foldl (fun a p => a * p.1 + p.2) a
        = a * (L.map Prod.fst).prod + L.foldl (fun a p => a * p.1 + p.2) 0 := by
  intro L
  induction L with
  | nil => intro a; simp
  | cons p t ih =>
    intro a
    simp only [List.foldl_cons, List.map_cons, List.prod_cons]
    rw [ih (a * p.1 + p.2), ih (0 * p.1 + p.2)]
    ring

theorem flatIdx_cons (s i : ℕ) (sizes is : List ℕ) (h : sizes.length ≤ is.length) :
    flatIdx (s :: sizes) (i :: is) = i * sizes.prod + flatIdx sizes is := by
  unfold flatIdx
  simp only [List.zip_cons_cons, List.foldl_cons]
  rw [foldl_flat_shift, List.map_fst_zip sizes is h]
  simp

theorem flatIdx_lt :
    ∀ (sizes is : List ℕ), sizes.length = is.length →
      (∀ k, k < sizes.length → is.getD k 0 < sizes.getD k 0) →
      flatIdx sizes is < sizes.prod := by
  intro sizes
  induction sizes with
  | nil => intro is _ _; simp [flatIdx]
  | cons s t ih =>
    intro is hlen hbound
    cases is with
    | nil => simp at hlen
    | cons i it =>
      have hlen' : t.length = it.length := by simpa using hlen
      have hi : i < s := by simpa using hbound 0 (by simp)
      have hb' : ∀ k, k < t.length → it.getD k 0 < t.getD k 0 := by
        intro k hk
        simpa using hbound (k + 1) (by simpa using hk)
      have hpos : 0 < t.prod := by
        apply List.prod_pos
        intro a ha
        rcases List.mem_iff_getElem.mp ha with ⟨k, hk, rfl⟩
        have := hb' k hk
        rw [List.getD_eq_getElem t 0 hk] at this
        omega
      have hrec : flatIdx t it < t.prod := ih it hlen' hb'
      rw [flatIdx_cons s i t it (le_of_eq hlen')]
      calc i * t.prod + flatIdx t it < i * t.prod + t.prod := by omega
        _ = (i + 1) * t.prod := by ring
        _ ≤ s * t.prod := Nat.mul_le_mul_right _ hi
        _ = (s :: t).prod := by simp [List.prod_cons]

theorem khatri_rao_length (R : ℕ) :
    ∀ ms : List Mat, ms ≠ [] → (∀ M ∈ ms, Rect R M) →
      (khatri_rao ms).length = (ms.map List.length).prod := by
  intro ms
  induction ms with
  | nil => intro h; exact absurd rfl h
  | cons M t ih =>
    intro _ hrect
    cases t with
    | nil => simp [khatri_rao]
    | cons M2 t2 =>
      show (KhatriRao2 M (khatri_rao (M2 :: t2))).length = _
      unfold KhatriRao2
      rw [length_flatMap_const _ _ (khatri_rao (M2 :: t2)).length (fun a _ => by simp)]
      rw [ih (by simp) (fun X hX => hrect X (by simp [hX]))]
      simp [List.prod_cons]

theorem zip_rows_length (R : ℕ) (ms : List Mat) (is : List ℕ)
    (hrect : ∀ M ∈ ms, Rect R M)
    (hbound : ∀ k, k < ms.length → is.getD k 0 < (ms.getD k []).length) :
    ∀ row ∈ (ms.zip is).map (fun p => p.1.getD p.2 []), row.length = R := by
  intro row hrow
  rcases List.mem_map.mp hrow with ⟨p, hp, rfl⟩
  rcases List.mem_iff_getElem.mp hp with ⟨k, hk, rfl⟩
  have hkm : k < ms.length := by
    rw [List.length_zip] at hk; omega
  have hki : k < is.length := by
    rw [List.length_zip] at hk; omega
  rw [List.getElem_zip]
  have h1 : ms[k] = ms.getD k [] := (List.getD_eq_getElem ms [] hkm).symm
  have h2 : is[k] = is.getD k 0 := (List.getD_eq_getElem is 0 hki).symm
  simp only [h1, h2]
  have hmem : (ms.getD k []).getD (is.getD k 0) [] ∈ ms.getD k [] :=
    getD_mem_of_lt _ (hbound k hkm) []
  exact (hrect _ (getD_mem_of_lt ms hkm [])).2 _ hmem

theorem khatri_rao_getD (R : ℕ) :
    ∀ (ms : List Mat) (is : List ℕ), ms ≠ [] →
      (∀ M ∈ ms, Rect R M) →
      is.length = ms.length →
      (∀ k, k < ms.length → is.getD k 0 < (ms.getD k []).length) →
      (khatri_rao ms).getD (flatIdx (ms.map List.length) is) []
        = (ms.zip is).foldl (fun acc p => zipMul acc (p.1.getD p.2 []))
            (List.replicate R 1) := by
  intro ms
  induction ms with
  | nil => intro is h; exact absurd rfl h
  | cons M t ih =>
    intro is _ hrect hlen hbound
    cases is with
    | nil => simp at hlen
    | cons i it =>
      have hi : i < M.length := by simpa using hbound 0 (by simp)
      have hrowlen : (M.getD i []).length = R :=
        (hrect M (by simp)).2 _ (getD_mem_of_lt M hi [])
      cases t with
      | nil =>
        cases it with
        | cons a b => simp at hlen
        | nil =>
          show (khatri_rao [M]).getD (flatIdx [M.length] [i]) [] = _
          have hflat : flatIdx [M.length] [i] = i := by
            unfold flatIdx; simp
          rw [hflat]
          show M.getD i [] = zipMul (List.replicate R 1) (M.getD i [])
          rw [← hrowlen, zipMul_ones_left]
      | cons M2 t2 =>
        have hlen' : it.length = (M2 :: t2).length := by simpa using hlen
        have hrect' : ∀ X ∈ M2 :: t2, Rect R X := fun X hX => hrect X (by simp [hX])
        have hbound' : ∀ k, k < (M2 :: t2).length →
            it.getD k 0 < ((M2 :: t2).getD k []).length := by
          intro k hk
          simpa using hbound (k + 1) (by simpa using hk)
        have hKlen : (khatri_rao (M2 :: t2)).length = ((M2 :: t2).map List.length).prod :=
          khatri_rao_length R (M2 :: t2) (by simp) hrect'
        have hflat' : flatIdx ((M2 :: t2).map List.length) it
            < ((M2 :: t2).map List.length).prod := by
          apply flatIdx_lt _ _ (by simpa using hlen'.symm)
          intro k hk
          have hk' : k < (M2 :: t2).length := by simpa using hk
          rw [getD_map_of_lt List.length (M2 :: t2) hk' [] 0]
          exact hbound' k hk'
        have hsplit : flatIdx ((M :: M2 :: t2).map List.length) (i :: it)
            = i * ((M2 :: t2).map List.length).prod
              + flatIdx ((M2 :: t2).map List.length) it := by
          simp only [List.map_cons]
          exact flatIdx_cons _ _ _ _ (by simp [hlen'])
        show (KhatriRao2 M (khatri_rao (M2 :: t2))).getD _ [] = _
        rw [hsplit, ← hKlen]
        unfold KhatriRao2
        rw [flatMap_getD_const M _ (khatri_rao (M2 :: t2)).length (fun a _ => by simp)
          i _ hi (by rw [hKlen]; exact hflat')]
        rw [getD_map_of_lt _ _ (by rw [hKlen]; exact hflat') [] []]
        rw [ih it (by simp) hrect' hlen' hbound']
        show zipMul (M.getD i []) _ = _
        simp only [List.zip_cons_cons, List.foldl_cons]
        have hones : zipMul (List.replicate R 1) (M.getD i []) = M.getD i [] := by
          rw [← hrowlen]; exact zipMul_ones_left _
        rw [hones]
        have hrows := zip_rows_length R (M2 :: t2) it hrect' hbound'
        rw [show ((M2 :: t2).zip it).foldl
              (fun acc p => zipMul acc (p.1.getD p.2 [])) (List.replicate R 1)
            = (((M2 :: t2).zip it).map (fun p => p.1.getD p.2 [])).foldl zipMul
                (List.replicate R 1) from (List.foldl_map _ _ _ _).symm,
          show ((M2 :: t2).zip it).foldl
              (fun acc p => zipMul acc (p.1.getD p.2 [])) (M.getD i [])
            = (((M2 :: t2).zip it).map (fun p => p.1.getD p.2 [])).foldl zipMul
                (M.getD i []) from (List.foldl_map _ _ _ _).symm]
        rw [foldl_zipMul_shift R _ _ hrows hrowlen]

theorem getD_zipWith_gen {α β γ : Type} (f : α → β → γ) (da : α) (db : β) (dc : γ) :
    ∀ (a : List α) (b : List β) (i : ℕ), i < a.length → i < b.length →
      (List.zipWith f a b).getD i dc = f (a.getD i da) (b.getD i db) := by
  intro a
  induction a with
  | nil => intro b i h; simp at h
  | cons x t ih =>
    intro b i h₁ h₂
    cases b with
    | nil => simp at h₂
    | cons y t₂ =>
      cases i with
      | zero => rfl
      | succ j =>
        simp only [List.length_cons, Nat.succ_lt_succ_iff] at h₁ h₂
        simpa [List.zipWith, List.getD] using ih t₂ j h₁ h₂

theorem headD_mem {α : Type} {l : List α} (h : l ≠ []) (d : α) : l.headD d ∈ l := by
  cases l with
  | nil => exact absurd rfl h
  | cons a t => simp

/-- `skip_matrix` handling (lines 332-333): drop the matrix at the given
index. -/
def skipMatrix (ms : List Mat) : Option ℕ → List Mat
  | none => ms
  | some sk => (ms.enum.filter (fun p => p.1 ≠ sk)).map Prod.snd

/-- The per-matrix sampled row indices (line 339):
`rng.randint(0, m.shape[0], size=n_samples)` for each matrix in turn, with
the generator advancing between draws. -/
def drawnIndices (B : Backend) (ctr : ℕ) (ms : List Mat) (n : ℕ) : List (List ℕ) :=
  ms.enum.map (fun p => B.randint (ctr + p.1) p.2.length n)

/-- The vectorised mixed-radix accumulation
`indices_kr = indices_kr * size + indices` (lines 342-344). -/
def indicesKr (sizes : List ℕ) (idxs : List (List ℕ)) (n : ℕ) : List ℕ :=
  (sizes.zip idxs).foldl
    (fun acc p => List.zipWith (fun a i => a * p.1 + i) acc p.2)
    (List.replicate n 0)

/-- `sampled_kr = ones((n_samples, rank))` then
`sampled_kr = sampled_kr * matrix[indices, :]` per matrix (lines 346-349). -/
def sampledKrOf (idxs : List (List ℕ)) (ms : List Mat) (n rank : ℕ) : Mat :=
  (idxs.zip ms).foldl
    (fun acc p => hadamardM acc (p.1.map (fun i => p.2.getD i [])))
    (onesM n rank)

/-- `sample_khatri_rao` (lines 285-354): draw `n_samples` row indices per
included matrix, returning the elementwise product of the sampled rows, the
per-matrix index lists, the flattened row indices (when
`return_sampled_rows`), and the advanced generator counter.  The generator
is a `Backend` service; the performance warning of lines 324-328 is
outside the embedded data flow. -/
def sample_khatri_rao (B : Backend) (ctr : ℕ) (matrices : List Mat) (n_samples : ℕ)
    (skip_matrix : Option ℕ) (return_sampled_rows : Bool) :
    Mat × List (List ℕ) × List ℕ × ℕ :=
  let ms := skipMatrix matrices skip_matrix
  let rank := numCols (ms.headD [])
  let sizes := ms.map List.length
  let indices_list := drawnIndices B ctr ms n_samples
  let indices_kr :=
    if return_sampled_rows then indicesKr sizes indices_list n_samples else []
  (sampledKrOf indices_list ms n_samples rank, indices_list, indices_kr,
    ctr + ms.length)

theorem drawnIndices_length (B : Backend) (ctr : ℕ) (ms : List Mat) (n : ℕ) :
    (drawnIndices B ctr ms n).length = ms.length := by
  simp [drawnIndices]

theorem drawnIndices_getD (B : Backend) (ctr : ℕ) (ms : List Mat) (n : ℕ)
    {k : ℕ} (hk : k < ms.length) :
    (drawnIndices B ctr ms n).getD k [] = B.randint (ctr + k) ((ms.getD k []).length) n := by
  unfold drawnIndices
  rw [getD_map_of_lt _ _ (by simpa using hk) (0, []) []]
  have henum : ms.enum.getD k (0, []) = (k, ms.getD k []) := by
    rw [List.getD_eq_getElem _ _ (by simpa using hk), List.getElem_enum,
      List.getD_eq_getElem ms [] hk]
  rw [henum]

theorem sampled_fold_getD {n j : ℕ} (hj : j < n) :
    ∀ (L : List (List ℕ × Mat)) (acc : Mat), acc.length = n →
      (∀ p ∈ L, p.1.length = n) →
      (L.foldl (fun acc p => hadamardM acc (p.1.map (fun i => p.2.getD i []))) acc).getD j []
        = L.foldl (fun v p => zipMul v (p.2.getD (p.1.getD j 0) [])) (acc.getD j []) := by
  intro L
  induction L with
  | nil => intro acc _ _; rfl
  | cons p t ih =>
    intro acc hacc hL
    have hp : p.1.length = n := hL p (by simp)
    have hstep : (hadamardM acc (p.1.map (fun i => p.2.getD i []))).length = n := by
      simp [hadamardM, hacc, hp]
    simp only [List.foldl_cons]
    rw [ih _ hstep (fun q hq => hL q (by simp [hq]))]
    have hrow : (hadamardM acc (p.1.map (fun i => p.2.getD i []))).getD j []
        = zipMul (acc.getD j []) (p.2.getD (p.1.getD j 0) []) := by
      unfold hadamardM
      rw [getD_zipWith_gen zipMul [] [] [] _ _ j (by omega) (by simp [hp]; omega)]
      rw [getD_map_of_lt _ _ (by omega) 0 []]
    rw [hrow]

theorem indicesKr_fold_getD {n j : ℕ} (hj : j < n) :
    ∀ (L : List (ℕ × List ℕ)) (acc : List ℕ), acc.length = n →
      (∀ p ∈ L, p.2.length = n) →
      (L.foldl (fun acc p => List.zipWith (fun a i => a * p.1 + i) acc p.2) acc).getD j 0
        = L.foldl (fun a p => a * p.1 + p.2.getD j 0) (acc.getD j 0) := by
  intro L
  induction L with
  | nil => intro acc _ _; rfl
  | cons p t ih =>
    intro acc hacc hL
    have hp : p.2.length = n := hL p (by simp)
    have hstep : (List.zipWith (fun a i => a * p.1 + i) acc p.2).length = n := by
      simp [hacc, hp]
    simp only [List.foldl_cons]
    rw [ih _ hstep (fun q hq => hL q (by simp [hq]))]
    rw [getD_zipWith_gen (fun a i => a * p.1 + i) 0 0 0 _ _ j (by omega) (by omega)]

theorem flatIdx_map_getD (sizes : List ℕ) (idxs : List (List ℕ)) (j : ℕ) :
    (sizes.zip idxs).foldl (fun a p => a * p.1 + p.2.getD j 0) 0
      = flatIdx sizes (idxs.map (fun l => l.getD j 0)) := by
  unfold flatIdx
  rw [List.zip_map_right, List.foldl_map]
  rfl

theorem fold_zip_swap (j : ℕ) :
    ∀ (ms : List Mat) (idxs : List (List ℕ)) (x : List ℚ),
      (ms.zip (idxs.map (fun l => l.getD j 0))).foldl
          (fun acc p => zipMul acc (p.1.getD p.2 [])) x
        = (idxs.zip ms).foldl (fun v p => zipMul v (p.2.getD (p.1.getD j 0) [])) x := by
  intro ms
  induction ms with
  | nil => intro idxs x; simp
  | cons M t ih =>
    intro idxs x
    cases idxs with
    | nil => simp
    | cons l tl => simpa using ih tl (zipMul x (M.getD (l.getD j 0) []))

/-- C5: for every matrix list and every drawn index list (any backend
generator), row `j` of the matrix returned by `sample_khatri_rao` is the
elementwise product of the rows sampled from the included matrices, and
the flattened index `indices_kr[j]` (mixed-radix accumulation
`indices_kr = indices_kr*size + indices`) addresses exactly the row of the
full Khatri-Rao product equal to that sampled row. -/
theorem sample_khatri_rao_correct (B : Backend) (ctr : ℕ) (matrices : List Mat)
    (n_samples : ℕ) (skip : Option ℕ) (R : ℕ)
    (hne : skipMatrix matrices skip ≠ [])
    (hrect : ∀ M ∈ skipMatrix matrices skip, Rect R M)
    (hdraw : ∀ k, k < (skipMatrix matrices skip).length →
      (B.randint (ctr + k) ((skipMatrix matrices skip).getD k []).length n_samples).length
          = n_samples
        ∧ ∀ j, j < n_samples →
          (B.randint (ctr + k) ((skipMatrix matrices skip).getD k []).length n_samples).getD j 0
            < ((skipMatrix matrices skip).getD k []).length) :
    ∀ j, j < n_samples →
      ((sample_khatri_rao B ctr matrices n_samples skip true).1.getD j []
          = ((drawnIndices B ctr (skipMatrix matrices skip) n_samples).zip
              (skipMatrix matrices skip)).foldl
              (fun v p => zipMul v (p.2.getD (p.1.getD j 0) [])) (List.replicate R 1))
      ∧ (khatri_rao (skipMatrix matrices skip)).getD
            ((sample_khatri_rao B ctr matrices n_samples skip true).2.2.1.getD j 0) []
          = (sample_khatri_rao B ctr matrices n_samples skip true).1.getD j [] := by
  intro j hj
  have hrank : numCols ((skipMatrix matrices skip).headD []) = R :=
    numCols_of_rect (hrect _ (headD_mem hne []))
  have hlenIdx : (drawnIndices B ctr (skipMatrix matrices skip) n_samples).length
      = (skipMatrix matrices skip).length :=
    drawnIndices_length B ctr (skipMatrix matrices skip) n_samples
  have hidx_getD : ∀ k, k < (skipMatrix matrices skip).length →
      (drawnIndices B ctr (skipMatrix matrices skip) n_samples).getD k []
        = B.randint (ctr + k) (((skipMatrix matrices skip).getD k []).length) n_samples :=
    fun k hk => drawnIndices_getD B ctr (skipMatrix matrices skip) n_samples hk
  have hplen : ∀ p ∈ (drawnIndices B ctr (skipMatrix matrices skip) n_samples).zip
      (skipMatrix matrices skip), p.1.length = n_samples := by
    intro p hp
    rcases List.mem_iff_getElem.mp hp with ⟨k, hk, rfl⟩
    rw [List.length_zip, hlenIdx] at hk
    have hkm : k < (skipMatrix matrices skip).length := by omega
    rw [List.getElem_zip]
    show (drawnIndices B ctr (skipMatrix matrices skip) n_samples)[k].length = n_samples
    rw [← List.getD_eq_getElem _ [] (by rw [hlenIdx]; omega), hidx_getD k hkm]
    exact (hdraw k hkm).1
  have hpart1 : (sampledKrOf (drawnIndices B ctr (skipMatrix matrices skip) n_samples)
        (skipMatrix matrices skip) n_samples R).getD j []
      = ((drawnIndices B ctr (skipMatrix matrices skip) n_samples).zip
          (skipMatrix matrices skip)).foldl
          (fun v p => zipMul v (p.2.getD (p.1.getD j 0) [])) (List.replicate R 1) := by
    unfold sampledKrOf
    rw [sampled_fold_getD hj _ (onesM n_samples R) (by simp [onesM]) hplen]
    congr 1
    unfold onesM
    exact getD_replicate_of_lt _ _ hj
  have hsizes_len : ((skipMatrix matrices skip).map List.length).length
      = (skipMatrix matrices skip).length := by simp
  have hplen2 : ∀ p ∈ ((skipMatrix matrices skip).map List.length).zip
      (drawnIndices B ctr (skipMatrix matrices skip) n_samples), p.2.length = n_samples := by
    intro p hp
    rcases List.mem_iff_getElem.mp hp with ⟨k, hk, rfl⟩
    rw [List.length_zip, hsizes_len, hlenIdx] at hk
    have hkm : k < (skipMatrix matrices skip).length := by omega
    rw [List.getElem_zip]
    show (drawnIndices B ctr (skipMatrix matrices skip) n_samples)[k].length = n_samples
    rw [← List.getD_eq_getElem _ [] (by rw [hlenIdx]; omega), hidx_getD k hkm]
    exact (hdraw k hkm).1
  have hkr_getD : ((indicesKr ((skipMatrix matrices skip).map List.length)
        (drawnIndices B ctr (skipMatrix matrices skip) n_samples) n_samples).getD j 0)
      = flatIdx ((skipMatrix matrices skip).map List.length)
          ((drawnIndices B ctr (skipMatrix matrices skip) n_samples).map
            (fun l => l.getD j 0)) := by
    unfold indicesKr
    rw [indicesKr_fold_getD hj _ (List.replicate n_samples 0) (by simp) hplen2,
      getD_replicate_of_lt _ _ hj]
    exact flatIdx_map_getD _ _ j
  have hmaplen : ((drawnIndices B ctr (skipMatrix matrices skip) n_samples).map
      (fun l => l.getD j 0)).length = (skipMatrix matrices skip).length := by
    rw [List.length_map, hlenIdx]
  have hbound' : ∀ k, k < (skipMatrix matrices skip).length →
      ((drawnIndices B ctr (skipMatrix matrices skip) n_samples).map
        (fun l => l.getD j 0)).getD k 0 < ((skipMatrix matrices skip).getD k []).length := by
    intro k hk
    rw [getD_map_of_lt _ _ (by rw [hlenIdx]; exact hk) [] 0, hidx_getD k hk]
    exact (hdraw k hk).2 j hj
  have hkrao := khatri_rao_getD R (skipMatrix matrices skip)
    ((drawnIndices B ctr (skipMatrix matrices skip) n_samples).map (fun l => l.getD j 0))
    hne hrect hmaplen hbound'
  have hswap := fold_zip_swap j (skipMatrix matrices skip)
    (drawnIndices B ctr (skipMatrix matrices skip) n_samples) (List.replicate R 1)
  constructor
  · show (sampledKrOf (drawnIndices B ctr (skipMatrix matrices skip) n_samples)
        (skipMatrix matrices skip) n_samples
        (numCols ((skipMatrix matrices skip).headD []))).getD j [] = _
    rw [hrank]
    exact hpart1
  · show (khatri_rao (skipMatrix matrices skip)).getD
        ((indicesKr ((skipMatrix matrices skip).map List.length)
          (drawnIndices B ctr (skipMatrix matrices skip) n_samples) n_samples).getD j 0) []
      = (sampledKrOf (drawnIndices B ctr (skipMatrix matrices skip) n_samples)
          (skipMatrix matrices skip) n_samples
          (numCols ((skipMatrix matrices skip).headD []))).getD j []
    rw [hrank, hkr_getD, hkrao, hswap, hpart1]

theorem sample_khatri_rao_correct_witness :
    ((skipMatrix [[[1, 2], [3, 4]], [[5, 6]]] none ≠ [])
      ∧ (∀ M ∈ skipMatrix [[[1, 2], [3, 4]], [[5, 6]]] none, Rect 2 M)
      ∧ (∀ k, k < (skipMatrix [[[1, 2], [3, 4]], [[5, 6]]] none).length →
          (stubBackend.randint (0 + k)
            ((skipMatrix [[[1, 2], [3, 4]], [[5, 6]]] none).getD k []).length 1).length = 1
          ∧ ∀ j, j < 1 →
            (stubBackend.randint (0 + k)
              ((skipMatrix [[[1, 2], [3, 4]], [[5, 6]]] none).getD k []).length 1).getD j 0
              < ((skipMatrix [[[1, 2], [3, 4]], [[5, 6]]] none).getD k []).length))
    ∧ ∀ j, j < 1 →
      ((sample_khatri_rao stubBackend 0 [[[1, 2], [3, 4]], [[5, 6]]] 1 none true).1.getD j []
          = ((drawnIndices stubBackend 0 (skipMatrix [[[1, 2], [3, 4]], [[5, 6]]] none) 1).zip
              (skipMatrix [[[1, 2], [3, 4]], [[5, 6]]] none)).foldl
              (fun v p => zipMul v (p.2.getD (p.1.getD j 0) [])) (List.replicate 2 1))
      ∧ (khatri_rao (skipMatrix [[[1, 2], [3, 4]], [[5, 6]]] none)).getD
            ((sample_khatri_rao stubBackend 0 [[[1, 2], [3, 4]], [[5, 6]]] 1 none
              true).2.2.1.getD j 0) []
          = (sample_khatri_rao stubBackend 0 [[[1, 2], [3, 4]], [[5, 6]]] 1 none
              true).1.getD j [] :=
  ⟨⟨by decide, by decide, by decide⟩,
    sample_khatri_rao_correct stubBackend 0 [[[1, 2], [3, 4]], [[5, 6]]] 1 none 2
      (by decide) (by decide) (by decide)⟩

/-! ### Factor initialization -/

/-- Error message of lines 96-98: names the offending `svd` value, the
backend, and the registered choices. -/
def svdErrMsg (svd : String) (B : Backend) : String :=
  "Got svd=" ++ svd ++ ". However, for the current backend ("
    ++ B.backendName ++ "), the possible choices are "
    ++ String.intercalate ", " (B.svdFuns.map Prod.fst)

/-- Error message of line 117 for an unknown initialization strategy. -/
def initErrMsg (init : String) : String :=
  "Initialization method \"" ++ init ++ "\" not recognized"

/-- Modelled from the spec: `unfold(tensor, mode)` (imported from
`tensorly.base`, external to this module): the matricization fixing `mode`
as rows and flattening the remaining modes, in their original order, as
columns. -/
def unfoldT (t : TensorQ) (mode : ℕ) : Mat :=
  (List.range (t.shape.getD mode 0)).map
    (fun i => (allIdx (t.shape.eraseIdx mode)).map
      (fun rest => t.entry (rest.insertIdx mode i)))

/-- `initialize_factors` (lines 59-117).  The backend random generator and
SVD registry are `Backend` services; unknown `svd` names (under
`init = 'svd'` only) and unknown strategies raise `ValueError`, embedded as
`Except.error` carrying the formatted message. -/
def initialize_factors (B : Backend) (tensor : TensorQ) (rank : ℕ)
    (init svd : String) (non_negative : Bool) : Except String (List Mat) :=
  if init = "random" then
    let factors := (List.range (ndimT tensor)).map
      (fun i => B.randomSample i (tensor.shape.getD i 0) rank)
    if non_negative then .ok (factors.map absM) else .ok factors
  else if init = "svd" then
    match B.svdFuns.lookup svd with
    | none => .error (svdErrMsg svd B)
    | some svd_fun =>
      .ok ((List.range (ndimT tensor)).map (fun mode =>
        let U := (svd_fun (unfoldT tensor mode) rank).1
        let U2 := if tensor.shape.getD mode 0 < rank then
            hconcat U (B.randomSample mode U.length (rank - tensor.shape.getD mode 0))
          else U
        if non_negative then absM (takeCols rank U2) else takeCols rank U2))
  else .error (initErrMsg init)

/-! ### The CP-ALS solver -/

/-- `epsilon = 10e-12` (line 165), i.e. `1e-11`. -/
def epsilonCP : ℚ := 10 / 10 ^ 12

/-- `accum` (lines 186-194): fold of the Gram matrices of all factors other
than `mode`, starting from the first such Gram matrix.  For a one-factor
list the Python scalar `1` is the identity of the subsequent `tl.dot`,
embedded as the identity matrix. -/
def accumOf (factors : List Mat) (mode rank : ℕ) : Mat :=
  match ((List.range factors.length).filter (fun i => i ≠ mode)).map
      (fun i => gramM (factors.getD i [])) with
  | [] => identityM rank
  | g :: gs => gs.foldl hadamardM g

/-- `pseudo_inverse` (lines 196-199): `np.ones((rank, rank))` times the
Gram matrix of every factor except `mode`. -/
def pseudoInvOf (factors : List Mat) (mode rank : ℕ) : Mat :=
  factors.enum.foldl
    (fun acc p => if p.1 ≠ mode then hadamardM acc (gramM p.2) else acc)
    (onesM rank rank)

/-- The multiplicative update of the non-negative branch (lines 203-207):
`factor[mode] * clip(mttkrp, eps) / clip(factor[mode] @ accum, eps)`. -/
def nnFactorUpdate (factor mttkrp accum : Mat) : Mat :=
  let numerator := clipMin epsilonCP mttkrp
  let denominator := clipMin epsilonCP (dotM factor accum)
  divM (hadamardM factor numerator) denominator

/-- One mode update of the sweep (lines 182-211), returning the updated
factor list together with the `mttkrp` and `factor` locals that survive the
loop and feed the error computation. -/
def modeUpdate (B : Backend) (tensor : TensorQ) (rank : ℕ) (non_negative : Bool)
    (factors : List Mat) (mode : ℕ) : List Mat × Mat × Mat :=
  let pseudo_inverse := pseudoInvOf factors mode rank
  let mttkrp := B.mttkrp tensor factors mode
  let factor :=
    if non_negative then
      nnFactorUpdate (factors.getD mode []) mttkrp (accumOf factors mode rank)
    else
      transposeM (B.solve (transposeM pseudo_inverse) (transposeM mttkrp))
  (factors.set mode factor, mttkrp, factor)

/-- The full mode sweep `for mode in range(tl.ndim(tensor))`, sequential:
later modes see the earlier updates of the same outer iteration. -/
def sweepModes (B : Backend) (tensor : TensorQ) (rank : ℕ) (non_negative : Bool)
    (factors : List Mat) : List Mat × Mat × Mat :=
  (List.range (ndimT tensor)).foldl
    (fun st mode => modeUpdate B tensor rank non_negative st.1 mode)
    (factors, [], [])

/-- `np.prod(np.stack(gs), 0)`: Hadamard product across a stack of
matrices; stacking an empty list is a Python error, so the `[]` case (one
of ones) is unreachable for tensors with at least one mode. -/
def stackProd (gs : List Mat) (rank : ℕ) : Mat :=
  match gs with
  | [] => onesM rank rank
  | g :: t => t.foldl hadamardM g

/-- The relative reconstruction error of lines 213-220, computed from the
updated factors and the last mode's `mttkrp` and `factor`. -/
def recErrorOf (B : Backend) (rank : ℕ) (normT : ℚ) (factors : List Mat)
    (mttkrp factor : Mat) : ℚ :=
  let factors_norm := sumEntries (stackProd (factors.map gramM) rank)
  let iprod := sumEntries (hadamardM mttkrp factor)
  B.sqrtFn |normT ^ 2 + factors_norm - 2 * iprod| / normT

/-- One outer iteration of the ALS loop (lines 176-221).  The
orthogonalisation branch (lines 177-178) QR-factors a scratch copy bound to
the local `factor`, which the sweep immediately overwrites — the scratch is
dead, modelled by a discarded binding.  The error value is always computed
here; the loop consults it only when `tol` is non-zero. -/
def outerIteration (B : Backend) (tensor : TensorQ) (rank : ℕ) (non_negative : Bool)
    (orth : ℕ) (normT : ℚ) (iteration : ℕ) (factors : List Mat) : List Mat × ℚ :=
  let _scratch :=
    if orth ≠ 0 ∧ iteration ≤ orth then factors.map (fun f => (B.qr f).1) else []
  let st := sweepModes B tensor rank non_negative factors
  (st.1, recErrorOf B rank normT st.1 st.2.1 st.2.2)

/-- The fuel-indexed ALS loop (lines 176-231): `fuel` is the remaining
iteration budget, `t` the number of completed outer iterations, `errs` the
error trace; the early `break` of line 231 returns the current state. -/
def parafacGo (B : Backend) (tensor : TensorQ) (rank : ℕ) (non_negative : Bool)
    (orth : ℕ) (tol normT : ℚ) :
    ℕ → ℕ → List Mat → List ℚ → List Mat × List ℚ × ℕ
  | 0, t, fs, errs => (fs, errs, t)
  | fuel + 1, t, fs, errs =>
    let pr := outerIteration B tensor rank non_negative orth normT t fs
    if tol ≠ 0 then
      let errs2 := errs ++ [pr.2]
      if 1 ≤ t ∧ |errs2.getD (errs2.length - 2) 0 - errs2.getD (errs2.length - 1) 0| < tol
      then (pr.1, errs2, t + 1)
      else parafacGo B tensor rank non_negative orth tol normT fuel (t + 1) pr.1 errs2
    else parafacGo B tensor rank non_negative orth tol normT fuel (t + 1) pr.1 errs

/-- Result of `parafac`: the factor list alone, or paired with the error
trace when `return_errors` is set (lines 236-239). -/
inductive ParafacResult where
  | onlyFactors (factors : List Mat)
  | withErrors (factors : List Mat) (recErrors : List ℚ)

/-- `parafac` (lines 120-239).  `orthogonalise` is embedded as a natural
number with `0` for `False` (Python's `True` is the integer `1`, so the
`isinstance` coercion of lines 167-168 never fires for ints and bools);
`verbose` printing is omitted; the backend services carry the random
state. -/
def parafac (B : Backend) (tensor : TensorQ) (rank n_iter_max : ℕ)
    (init svd : String) (tol : ℚ) (orthogonalise : ℕ)
    (return_errors non_negative : Bool) : Except String ParafacResult := do
  let factors ← initialize_factors B tensor rank init svd non_negative
  let normT := B.sqrtFn (sumSqT tensor)
  let res := parafacGo B tensor rank non_negative orthogonalise tol normT
    n_iter_max 0 factors []
  if return_errors then
    return ParafacResult.withErrors res.1 res.2.1
  else
    return ParafacResult.onlyFactors res.1

/-- `non_negative_parafac` (lines 242-282): delegates to `parafac` with
`non_negative=True`, forwarding the defaults `orthogonalise=False` and
`return_errors=False`. -/
def non_negative_parafac (B : Backend) (tensor : TensorQ) (rank n_iter_max : ℕ)
    (init svd : String) (tol : ℚ) : Except String ParafacResult :=
  parafac B tensor rank n_iter_max init svd tol 0 false true

/-! ### C4: the `orthogonalise` toggle is a no-op -/

theorem outerIteration_orth_irrel (B : Backend) (tensor : TensorQ) (rank : ℕ)
    (nn : Bool) (orth : ℕ) (normT : ℚ) (t : ℕ) (fs : List Mat) :
    outerIteration B tensor rank nn orth normT t fs
      = outerIteration B tensor rank nn 0 normT t fs := rfl

theorem parafacGo_orth_irrel (B : Backend) (tensor : TensorQ) (rank : ℕ)
    (nn : Bool) (orth : ℕ) (tol normT : ℚ) :
    ∀ (fuel t : ℕ) (fs : List Mat) (errs : List ℚ),
      parafacGo B tensor rank nn orth tol normT fuel t fs errs
        = parafacGo B tensor rank nn 0 tol normT fuel t fs errs := by
  intro fuel
  induction fuel with
  | zero => intro t fs errs; rfl
  | succ n ih =>
    intro t fs errs
    simp only [parafacGo, outerIteration_orth_irrel, ih]

/-- C4: for identical inputs, backend services and random state, `parafac`
with `orthogonalise` enabled returns exactly the same value — the same
factor list and the same error trace — as `parafac` with
`orthogonalise=False` (embedded as `0`): the QR scratch of lines 177-178 is
bound to the local `factor` that the mode sweep immediately overwrites, so
it never feeds back. -/
theorem parafac_orthogonalise_noop (B : Backend) (tensor : TensorQ)
    (rank n_iter_max : ℕ) (init svd : String) (tol : ℚ) (orthogonalise : ℕ)
    (return_errors non_negative : Bool) :
    parafac B tensor rank n_iter_max init svd tol orthogonalise
        return_errors non_negative
      = parafac B tensor rank n_iter_max init svd tol 0
          return_errors non_negative := by
  simp only [parafac, parafacGo_orth_irrel]

/-! ### C10: `non_negative_parafac` exposes no trace and no orthogonalisation -/

/-- Whether a `parafac` result carries the error trace. -/
def returnsTrace : Except String ParafacResult → Bool
  | .ok (.withErrors _ _) => true
  | _ => false

/-- C10: `non_negative_parafac` is exactly `parafac` with
`non_negative=True` and the defaults `orthogonalise=False`,
`return_errors=False` — its signature has no trace or orthogonalisation
parameter — and consequently its result never carries the error trace. -/
theorem non_negative_parafac_no_trace (B : Backend) (tensor : TensorQ)
    (rank n_iter_max : ℕ) (init svd : String) (tol : ℚ) :
    non_negative_parafac B tensor rank n_iter_max init svd tol
        = parafac B tensor rank n_iter_max init svd tol 0 false true
      ∧ returnsTrace (non_negative_parafac B tensor rank n_iter_max init svd tol)
        = false := by
  refine ⟨rfl, ?_⟩
  unfold non_negative_parafac parafac
  cases h : initialize_factors B tensor rank init svd true with
  | error e => simp [h, returnsTrace]
  | ok fs => simp [h, returnsTrace]

/-! ### C1: non-negativity of the multiplicative-update path -/

theorem epsilonCP_pos : 0 < epsilonCP := by norm_num [epsilonCP]

theorem absM_nonneg (M : Mat) : MatNonneg (absM M) := by
  intro row hrow x hx
  rcases List.mem_map.mp hrow with ⟨r, _, rfl⟩
  rcases List.mem_map.mp hx with ⟨y, _, rfl⟩
  exact abs_nonneg y

theorem nil_nonneg : MatNonneg [] := by
  intro row hrow
  simp at hrow

theorem clipMin_entries (eps : ℚ) (M : Mat) :
    ∀ row ∈ clipMin eps M, ∀ x ∈ row, eps ≤ x := by
  intro row hrow x hx
  rcases List.mem_map.mp hrow with ⟨r, _, rfl⟩
  rcases List.mem_map.mp hx with ⟨y, _, rfl⟩
  exact le_max_right y eps

theorem nnFactorUpdate_nonneg (f mttkrp accum : Mat) (hf : MatNonneg f) :
    MatNonneg (nnFactorUpdate f mttkrp accum) := by
  intro row hrow x hx
  unfold nnFactorUpdate divM at hrow
  rcases mem_of_mem_zipWith hrow with ⟨r1, hr1, r2, hr2, rfl⟩
  unfold zipDiv at hx
  rcases mem_of_mem_zipWith hx with ⟨a, ha, b, hb, rfl⟩
  unfold hadamardM at hr1
  rcases mem_of_mem_zipWith hr1 with ⟨rf, hrf, rn, hrn, rfl⟩
  unfold zipMul at ha
  rcases mem_of_mem_zipWith ha with ⟨u, hu, v, hv, rfl⟩
  have hu0 : 0 ≤ u := hf rf hrf u hu
  have hv0 : 0 ≤ v := le_trans (le_of_lt epsilonCP_pos) (clipMin_entries _ _ rn hrn v hv)
  have hb0 : 0 ≤ b := le_trans (le_of_lt epsilonCP_pos) (clipMin_entries _ _ r2 hr2 b hb)
  exact div_nonneg (mul_nonneg hu0 hv0) hb0

theorem getD_nonneg_of_all (fs : List Mat) (h : ∀ M ∈ fs, MatNonneg M) (i : ℕ) :
    MatNonneg (fs.getD i []) := by
  by_cases hi : i < fs.length
  · exact h _ (getD_mem_of_lt fs hi [])
  · push_neg at hi
    rw [getD_of_length_le fs hi]
    exact nil_nonneg

theorem modeUpdate_nonneg (B : Backend) (tensor : TensorQ) (rank : ℕ)
    (fs : List Mat) (mode : ℕ) (h : ∀ M ∈ fs, MatNonneg M) :
    ∀ M ∈ (modeUpdate B tensor rank true fs mode).1, MatNonneg M := by
  intro M hM
  have hproj : (modeUpdate B tensor rank true fs mode).1
      = fs.set mode (nnFactorUpdate (fs.getD mode [])
          (B.mttkrp tensor fs mode) (accumOf fs mode rank)) := rfl
  rw [hproj] at hM
  rcases mem_of_mem_set hM with hM | hM
  · subst hM
    exact nnFactorUpdate_nonneg _ _ _ (getD_nonneg_of_all fs h mode)
  · exact h M hM

theorem sweepModes_nonneg (B : Backend) (tensor : TensorQ) (rank : ℕ) :
    ∀ (modes : List ℕ) (st : List Mat × Mat × Mat), (∀ M ∈ st.1, MatNonneg M) →
      ∀ M ∈ (modes.foldl (fun st mode => modeUpdate B tensor rank true st.1 mode) st).1,
        MatNonneg M := by
  intro modes
  induction modes with
  | nil => intro st h; exact h
  | cons m t ih =>
    intro st h
    simp only [List.foldl_cons]
    exact ih _ (modeUpdate_nonneg B tensor rank st.1 m h)

theorem parafacGo_nonneg (B : Backend) (tensor : TensorQ) (rank : ℕ)
    (orth : ℕ) (tol normT : ℚ) :
    ∀ (fuel t : ℕ) (fs : List Mat) (errs : List ℚ), (∀ M ∈ fs, MatNonneg M) →
      ∀ M ∈ (parafacGo B tensor rank true orth tol normT fuel t fs errs).1,
        MatNonneg M := by
  intro fuel
  induction fuel with
  | zero => intro t fs errs h; exact h
  | succ n ih =>
    intro t fs errs h
    have hstep : ∀ M ∈ (outerIteration B tensor rank true orth normT t fs).1,
        MatNonneg M := by
      unfold outerIteration sweepModes
      exact sweepModes_nonneg B tensor rank (List.range (ndimT tensor)) (fs, [], []) h
    rw [parafacGo]
    by_cases htol : tol ≠ 0
    · simp only [if_pos htol]
      split
      · exact hstep
      · exact ih _ _ _ hstep
    · simp only [if_neg htol]
      exact ih _ _ _ hstep

/-- The factor list carried by a `parafac`-style result (empty on error). -/
def factorsOfE : Except String ParafacResult → List Mat
  | .ok (.onlyFactors fs) => fs
  | .ok (.withErrors fs _) => fs
  | .error _ => []

/-- The factor list of an `initialize_factors` result (empty on error). -/
def initFactorsOfE : Except String (List Mat) → List Mat
  | .ok fs => fs
  | .error _ => []

theorem initialize_factors_nonneg (B : Backend) (tensor : TensorQ) (rank : ℕ)
    (init svd : String) :
    ∀ M ∈ initFactorsOfE (initialize_factors B tensor rank init svd true),
      MatNonneg M := by
  unfold initialize_factors
  by_cases h1 : init = "random"
  · intro M hM
    simp only [h1, if_pos, if_true, initFactorsOfE] at hM
    rcases List.mem_map.mp hM with ⟨X, _, rfl⟩
    exact absM_nonneg X
  · by_cases h2 : init = "svd"
    · simp only [h1, h2, if_false, if_true, ite_true, ite_false]
      cases hl : B.svdFuns.lookup svd with
      | none => intro M hM; simp [initFactorsOfE] at hM
      | some f =>
        intro M hM
        simp only [initFactorsOfE] at hM
        rcases List.mem_map.mp hM with ⟨mode, _, rfl⟩
        exact absM_nonneg _
    · intro M hM
      simp [h1, h2, initFactorsOfE] at hM

theorem allNonnegB_of_all (fs : List Mat) (h : ∀ M ∈ fs, MatNonneg M) :
    allNonnegB fs = true := by
  unfold allNonnegB
  rw [List.all_eq_true]
  intro M hM
  exact (matNonnegB_eq_true_iff M).mpr (h M hM)

/-- C1: every entry of every factor returned by `non_negative_parafac` is
non-negative (for every backend, tensor, rank and parameters); the
multiplicative per-mode update `factor * clip(mttkrp, eps) /
clip(factor@accum, eps)` with `eps = 10e-12 = 1e-11` maps an elementwise
non-negative factor to an elementwise non-negative factor; and the
initialization with `non_negative=True` always produces non-negative
factors (elementwise absolute value in both strategies). -/
theorem non_negative_parafac_nonneg :
    (∀ (B : Backend) (tensor : TensorQ) (rank n_iter_max : ℕ)
        (init svd : String) (tol : ℚ),
      allNonnegB (factorsOfE
        (non_negative_parafac B tensor rank n_iter_max init svd tol)) = true)
    ∧ (∀ f mttkrp accum : Mat, matNonnegB f = true →
        matNonnegB (nnFactorUpdate f mttkrp accum) = true)
    ∧ (∀ (B : Backend) (tensor : TensorQ) (rank : ℕ) (init svd : String),
        allNonnegB (initFactorsOfE
          (initialize_factors B tensor rank init svd true)) = true) := by
  refine ⟨?_, ?_, ?_⟩
  · intro B tensor rank n_iter_max init svd tol
    unfold non_negative_parafac parafac
    cases h : initialize_factors B tensor rank init svd true with
    | error e => simp [h, factorsOfE, allNonnegB]
    | ok fs =>
      have hfs : ∀ M ∈ fs, MatNonneg M := by
        have := initialize_factors_nonneg B tensor rank init svd
        rw [h] at this
        exact this
      simp only [h, Except.bind, Bool.false_eq_true, if_false, ite_false]
      apply allNonnegB_of_all
      show ∀ M ∈ factorsOfE (Except.ok (ParafacResult.onlyFactors _)), MatNonneg M
      exact parafacGo_nonneg B tensor rank 0 tol _ n_iter_max 0 fs [] hfs
  · intro f mttkrp accum hf
    exact (matNonnegB_eq_true_iff _).mpr
      (nnFactorUpdate_nonneg f mttkrp accum ((matNonnegB_eq_true_iff f).mp hf))
  · intro B tensor rank init svd
    exact allNonnegB_of_all _ (initialize_factors_nonneg B tensor rank init svd)

theorem non_negative_parafac_nonneg_witness :
    matNonnegB [[1, 0], [2, 3]] = true
    ∧ matNonnegB (nnFactorUpdate [[1, 0], [2, 3]] [[5, -1], [0, 2]] [[1, 1], [1, 1]])
      = true :=
  ⟨by decide,
    non_negative_parafac_nonneg.2.1 [[1, 0], [2, 3]] [[5, -1], [0, 2]] [[1, 1], [1, 1]]
      (by decide)⟩

/-! ### C3: configuration errors -/

theorem strData_append (a b : String) : (a ++ b).data = a.data ++ b.data := rfl

/-- Whether an `Except` result is a success. -/
def isOkE {ε α : Type} : Except ε α → Bool
  | .ok _ => true
  | .error _ => false

theorem svdErrMsg_contains (svd : String) (B : Backend) :
    svd.data <:+: (svdErrMsg svd B).data
    ∧ (String.intercalate ", " (B.svdFuns.map Prod.fst)).data <:+: (svdErrMsg svd B).data := by
  constructor
  · refine ⟨"Got svd=".data,
      (". However, for the current backend (" ++ B.backendName
        ++ "), the possible choices are "
        ++ String.intercalate ", " (B.svdFuns.map Prod.fst)).data, ?_⟩
    simp [svdErrMsg, strData_append, List.append_assoc]
  · refine ⟨("Got svd=" ++ svd ++ ". However, for the current backend ("
        ++ B.backendName ++ "), the possible choices are ").data, [], ?_⟩
    simp [svdErrMsg, strData_append, List.append_assoc]

theorem initErrMsg_contains (init : String) :
    init.data <:+: (initErrMsg init).data := by
  refine ⟨"Initialization method \"".data, "\" not recognized".data, ?_⟩
  simp [initErrMsg, strData_append, List.append_assoc]

/-- C3 (counterexample to the claim as stated): with `init='random'`, the
SVD registry is never consulted, so an unregistered `svd` name raises no
error — the call succeeds. -/
theorem parafac_bad_svd_ignored_with_random_init :
    (stubBackend.svdFuns.lookup "bogus").isNone = true
    ∧ isOkE (parafac stubBackend ⟨[2], fun _ => 1⟩ 1 1 "random" "bogus" 0 0
        false false) = true := by
  constructor
  · rfl
  · rfl

/-- C3 (amended): with `init='svd'`, an `svd` name unregistered in the
backend registry makes `parafac` raise a configuration error whose message
contains the offending value and the rendered list of registered choices;
an `init` strategy other than the two recognized values makes `parafac`
raise a configuration error naming the offending value.  (With
`init='random'` the registry is not consulted — see the counterexample.) -/
theorem parafac_config_errors (B : Backend) (tensor : TensorQ)
    (rank n_iter_max : ℕ) (init svd : String) (tol : ℚ) (orth : ℕ)
    (re nn : Bool) :
    (B.svdFuns.lookup svd = none →
      parafac B tensor rank n_iter_max "svd" svd tol orth re nn
          = .error (svdErrMsg svd B)
      ∧ svd.data <:+: (svdErrMsg svd B).data
      ∧ (String.intercalate ", " (B.svdFuns.map Prod.fst)).data
          <:+: (svdErrMsg svd B).data)
    ∧ (init ≠ "random" → init ≠ "svd" →
        parafac B tensor rank n_iter_max init svd tol orth re nn
            = .error (initErrMsg init)
        ∧ init.data <:+: (initErrMsg init).data) := by
  constructor
  · intro hlookup
    have hinit : initialize_factors B tensor rank "svd" svd nn
        = .error (svdErrMsg svd B) := by
      unfold initialize_factors
      rw [if_neg (by decide), if_pos rfl, hlookup]
    refine ⟨?_, (svdErrMsg_contains svd B).1, (svdErrMsg_contains svd B).2⟩
    simp only [parafac, hinit]
    rfl
  · intro hr hs
    have hinit : initialize_factors B tensor rank init svd nn
        = .error (initErrMsg init) := by
      unfold initialize_factors
      rw [if_neg hr, if_neg hs]
    refine ⟨?_, initErrMsg_contains init⟩
    simp only [parafac, hinit]
    rfl

theorem parafac_config_errors_witness :
    (stubBackend.svdFuns.lookup "bogus" = none
      ∧ ("foo" : String) ≠ "random" ∧ ("foo" : String) ≠ "svd")
    ∧ (parafac stubBackend ⟨[2], fun _ => 1⟩ 1 1 "svd" "bogus" 0 0 false false
        = .error (svdErrMsg "bogus" stubBackend)
      ∧ "bogus".data <:+: (svdErrMsg "bogus" stubBackend).data
      ∧ (String.intercalate ", " (stubBackend.svdFuns.map Prod.fst)).data
          <:+: (svdErrMsg "bogus" stubBackend).data)
    ∧ (parafac stubBackend ⟨[2], fun _ => 1⟩ 1 1 "foo" "bogus" 0 0 false false
        = .error (initErrMsg "foo")
      ∧ "foo".data <:+: (initErrMsg "foo").data) :=
  ⟨⟨rfl, by decide, by decide⟩,
    (parafac_config_errors stubBackend ⟨[2], fun _ => 1⟩ 1 1 "foo" "bogus" 0 0
      false false).1 rfl,
    (parafac_config_errors stubBackend ⟨[2], fun _ => 1⟩ 1 1 "foo" "bogus" 0 0
      false false).2 (by decide) (by decide)⟩

/-! ### C2: termination of the ALS loop -/

/-- The factor list after `t` outer iterations of the (break-free) iteration
body, starting from `fs0`. -/
def factorsAfter (B : Backend) (tensor : TensorQ) (rank : ℕ) (nn : Bool)
    (orth : ℕ) (normT : ℚ) (fs0 : List Mat) : ℕ → List Mat
  | 0 => fs0
  | t + 1 => (outerIteration B tensor rank nn orth normT t
      (factorsAfter B tensor rank nn orth normT fs0 t)).1

/-- `error[t]`: the reconstruction error computed at outer iteration `t`. -/
def errAt (B : Backend) (tensor : TensorQ) (rank : ℕ) (nn : Bool)
    (orth : ℕ) (normT : ℚ) (fs0 : List Mat) (t : ℕ) : ℚ :=
  (outerIteration B tensor rank nn orth normT t
    (factorsAfter B tensor rank nn orth normT fs0 t)).2

/-- The stopping predicate of line 228: from the second iteration onward,
`|error[t] - error[t-1]| < tol`. -/
def stopsAt (B : Backend) (tensor : TensorQ) (rank : ℕ) (nn : Bool)
    (orth : ℕ) (normT : ℚ) (fs0 : List Mat) (tol : ℚ) (t : ℕ) : Prop :=
  1 ≤ t ∧ |errAt B tensor rank nn orth normT fs0 t
    - errAt B tensor rank nn orth normT fs0 (t - 1)| < tol

theorem parafacGo_char (B : Backend) (tensor : TensorQ) (rank : ℕ) (nn : Bool)
    (orth : ℕ) (normT : ℚ) (fs0 : List Mat) (tol : ℚ) (htol : tol ≠ 0) :
    ∀ (fuel t : ℕ),
      (∀ s, s < t → ¬ stopsAt B tensor rank nn orth normT fs0 tol s) →
      (∃ u, t ≤ u ∧ u < t + fuel
        ∧ stopsAt B tensor rank nn orth normT fs0 tol u
        ∧ (∀ s, s < u → ¬ stopsAt B tensor rank nn orth normT fs0 tol s)
        ∧ parafacGo B tensor rank nn orth tol normT fuel t
            (factorsAfter B tensor rank nn orth normT fs0 t)
            ((List.range t).map (errAt B tensor rank nn orth normT fs0))
          = (factorsAfter B tensor rank nn orth normT fs0 (u + 1),
              (List.range (u + 1)).map (errAt B tensor rank nn orth normT fs0),
              u + 1))
      ∨ ((∀ s, s < t + fuel → ¬ stopsAt B tensor rank nn orth normT fs0 tol s)
        ∧ parafacGo B tensor rank nn orth tol normT fuel t
            (factorsAfter B tensor rank nn orth normT fs0 t)
            ((List.range t).map (errAt B tensor rank nn orth normT fs0))
          = (factorsAfter B tensor rank nn orth normT fs0 (t + fuel),
              (List.range (t + fuel)).map (errAt B tensor rank nn orth normT fs0),
              t + fuel)) := by
  intro fuel
  induction fuel with
  | zero =>
    intro t hprior
    right
    exact ⟨by simpa using hprior, rfl⟩
  | succ n ih =>
    intro t hprior
    have hfa : (outerIteration B tensor rank nn orth normT t
        (factorsAfter B tensor rank nn orth normT fs0 t)).1
        = factorsAfter B tensor rank nn orth normT fs0 (t + 1) := rfl
    have herr : (outerIteration B tensor rank nn orth normT t
        (factorsAfter B tensor rank nn orth normT fs0 t)).2
        = errAt B tensor rank nn orth normT fs0 t := rfl
    have hE : (List.range t).map (errAt B tensor rank nn orth normT fs0)
        ++ [errAt B tensor rank nn orth normT fs0 t]
        = (List.range (t + 1)).map (errAt B tensor rank nn orth normT fs0) := by
      rw [List.range_succ]
      simp
    have hlenE : ((List.range (t + 1)).map
        (errAt B tensor rank nn orth normT fs0)).length = t + 1 := by simp
    have hcond : (1 ≤ t ∧
        |((List.range (t + 1)).map (errAt B tensor rank nn orth normT fs0)).getD
            (((List.range (t + 1)).map (errAt B tensor rank nn orth normT fs0)).length - 2) 0
          - ((List.range (t + 1)).map (errAt B tensor rank nn orth normT fs0)).getD
            (((List.range (t + 1)).map (errAt B tensor rank nn orth normT fs0)).length - 1) 0|
          < tol)
        ↔ stopsAt B tensor rank nn orth normT fs0 tol t := by
      unfold stopsAt
      by_cases ht : 1 ≤ t
      · have h2 : ((List.range (t + 1)).map (errAt B tensor rank nn orth normT fs0)).getD
            (((List.range (t + 1)).map (errAt B tensor rank nn orth normT fs0)).length - 2) 0
            = errAt B tensor rank nn orth normT fs0 (t - 1) := by
          rw [hlenE]
          have h21 : t + 1 - 2 = t - 1 := by omega
          rw [h21]
          exact getD_map_range _ (by omega) 0
        have h1 : ((List.range (t + 1)).map (errAt B tensor rank nn orth normT fs0)).getD
            (((List.range (t + 1)).map (errAt B tensor rank nn orth normT fs0)).length - 1) 0
            = errAt B tensor rank nn orth normT fs0 t := by
          rw [hlenE]
          have h11 : t + 1 - 1 = t := by omega
          rw [h11]
          exact getD_map_range _ (by omega) 0
        rw [h2, h1, abs_sub_comm]
      · constructor
        · intro h; exact absurd h.1 ht
        · intro h; exact absurd h.1 ht
    rw [parafacGo]
    simp only [if_pos htol, hfa, herr, hE]
    by_cases hst : stopsAt B tensor rank nn orth normT fs0 tol t
    · rw [if_pos (hcond.mpr hst)]
      left
      exact ⟨t, le_refl t, by omega, hst, hprior, rfl⟩
    · rw [if_neg (fun h => hst (hcond.mp h))]
      have hprior' : ∀ s, s < t + 1 → ¬ stopsAt B tensor rank nn orth normT fs0 tol s := by
        intro s hs
        rcases Nat.lt_succ_iff_lt_or_eq.mp hs with hs | hs
        · exact hprior s hs
        · subst hs; exact hst
      rcases ih (t + 1) hprior' with ⟨u, h1, h2, h3, h4, h5⟩ | ⟨h1, h2⟩
      · left
        exact ⟨u, by omega, by omega, h3, h4, h5⟩
      · right
        refine ⟨by intro s hs; exact h1 s (by omega), ?_⟩
        have harith : t + 1 + n = t + (n + 1) := by omega
        rw [harith] at h2
        exact h2

theorem parafacGo_tol_zero (B : Backend) (tensor : TensorQ) (rank : ℕ) (nn : Bool)
    (orth : ℕ) (normT : ℚ) (fs0 : List Mat) :
    ∀ (fuel t : ℕ) (errs : List ℚ),
      parafacGo B tensor rank nn orth 0 normT fuel t
          (factorsAfter B tensor rank nn orth normT fs0 t) errs
        = (factorsAfter B tensor rank nn orth normT fs0 (t + fuel), errs, t + fuel) := by
  intro fuel
  induction fuel with
  | zero => intro t errs; rfl
  | succ n ih =>
    intro t errs
    rw [parafacGo]
    simp only [if_neg (fun h : (0 : ℚ) ≠ 0 => h rfl)]
    have hfa : (outerIteration B tensor rank nn orth normT t
        (factorsAfter B tensor rank nn orth normT fs0 t)).1
        = factorsAfter B tensor rank nn orth normT fs0 (t + 1) := rfl
    rw [hfa, ih (t + 1) errs]
    have harith : t + 1 + n = t + (n + 1) := by omega
    rw [harith]

/-- C2: for every backend, tensor, rank and starting factors, with `tol > 0`
the ALS loop either stops at the first outer iteration `t ≥ 1` (error
checked from the second iteration onward) at which
`|error[t] - error[t-1]| < tol` — completing exactly `t + 1` iterations —
or, if no such iteration occurs before the bound, runs exactly
`max_iterations` iterations; with `tol = 0` the tolerance check never runs,
no errors are recorded, and exactly `max_iterations` iterations run. -/
theorem parafac_loop_termination (B : Backend) (tensor : TensorQ) (rank : ℕ)
    (nn : Bool) (orth n_iter_max : ℕ) (tol normT : ℚ) (fs0 : List Mat)
    (_hsh : tensor.shape ≠ []) :
    (0 < tol →
      (∃ u, u < n_iter_max
        ∧ stopsAt B tensor rank nn orth normT fs0 tol u
        ∧ (∀ s, s < u → ¬ stopsAt B tensor rank nn orth normT fs0 tol s)
        ∧ parafacGo B tensor rank nn orth tol normT n_iter_max 0 fs0 []
          = (factorsAfter B tensor rank nn orth normT fs0 (u + 1),
              (List.range (u + 1)).map (errAt B tensor rank nn orth normT fs0),
              u + 1))
      ∨ ((∀ s, s < n_iter_max → ¬ stopsAt B tensor rank nn orth normT fs0 tol s)
        ∧ parafacGo B tensor rank nn orth tol normT n_iter_max 0 fs0 []
          = (factorsAfter B tensor rank nn orth normT fs0 n_iter_max,
              (List.range n_iter_max).map (errAt B tensor rank nn orth normT fs0),
              n_iter_max)))
    ∧ (tol = 0 →
        parafacGo B tensor rank nn orth tol normT n_iter_max 0 fs0 []
          = (factorsAfter B tensor rank nn orth normT fs0 n_iter_max, [],
              n_iter_max)) := by
  constructor
  · intro htolpos
    have hchar := parafacGo_char B tensor rank nn orth normT fs0 tol
      (ne_of_gt htolpos) n_iter_max 0 (by intro s hs; omega)
    rcases hchar with ⟨u, _, h2, h3, h4, h5⟩ | ⟨h1, h2⟩
    · left
      exact ⟨u, by omega, h3, h4, h5⟩
    · right
      refine ⟨by intro s hs; exact h1 s (by omega), ?_⟩
      have harith : 0 + n_iter_max = n_iter_max := by omega
      rw [harith] at h2
      exact h2
  · intro h0
    subst h0
    have := parafacGo_tol_zero B tensor rank nn orth normT fs0 n_iter_max 0 []
    have harith : 0 + n_iter_max = n_iter_max := by omega
    rw [harith] at this
    exact this

theorem parafac_loop_termination_witness :
    ((⟨[2], fun _ => 1⟩ : TensorQ).shape ≠ [])
    ∧ (((0 : ℚ) < 1 →
      (∃ u, u < 3
        ∧ stopsAt stubBackend ⟨[2], fun _ => 1⟩ 1 true 0 2 [[[1], [1]]] 1 u
        ∧ (∀ s, s < u → ¬ stopsAt stubBackend ⟨[2], fun _ => 1⟩ 1 true 0 2 [[[1], [1]]] 1 s)
        ∧ parafacGo stubBackend ⟨[2], fun _ => 1⟩ 1 true 0 1 2 3 0 [[[1], [1]]] []
          = (factorsAfter stubBackend ⟨[2], fun _ => 1⟩ 1 true 0 2 [[[1], [1]]] (u + 1),
              (List.range (u + 1)).map
                (errAt stubBackend ⟨[2], fun _ => 1⟩ 1 true 0 2 [[[1], [1]]]),
              u + 1))
      ∨ ((∀ s, s < 3 → ¬ stopsAt stubBackend ⟨[2], fun _ => 1⟩ 1 true 0 2 [[[1], [1]]] 1 s)
        ∧ parafacGo stubBackend ⟨[2], fun _ => 1⟩ 1 true 0 1 2 3 0 [[[1], [1]]] []
          = (factorsAfter stubBackend ⟨[2], fun _ => 1⟩ 1 true 0 2 [[[1], [1]]] 3,
              (List.range 3).map
                (errAt stubBackend ⟨[2], fun _ => 1⟩ 1 true 0 2 [[[1], [1]]]),
              3)))
    ∧ ((1 : ℚ) = 0 →
        parafacGo stubBackend ⟨[2], fun _ => 1⟩ 1 true 0 1 2 3 0 [[[1], [1]]] []
          = (factorsAfter stubBackend ⟨[2], fun _ => 1⟩ 1 true 0 2 [[[1], [1]]] 3, [],
              3))) :=
  ⟨by decide,
    parafac_loop_termination stubBackend ⟨[2], fun _ => 1⟩ 1 true 0 3 1 2 [[[1], [1]]]
      (by decide)⟩

/-! ### The randomised solver and C8 (error-trace discipline) -/

/-- The sampled unfolding `tensor[indices_list]` of lines 403-412: row `j`,
column `i` is the tensor entry whose `mode` index is `i` and whose other
indices are the `j`-th drawn samples (numpy advanced indexing with the full
slice re-inserted at `mode`; the `mode == 0` case is transposed back to the
same `(n_samples, shape[mode])` layout). -/
def sampledUnfolding (t : TensorQ) (mode : ℕ) (idxs : List (List ℕ)) (n : ℕ) : Mat :=
  (List.range n).map (fun j =>
    (List.range (t.shape.getD mode 0)).map (fun i =>
      t.entry (((idxs.map (fun l => l.getD j 0)).insertIdx mode i))))

/-- Line 420: `tl.norm(tensor - kruskal_to_tensor(factors), 2) / norm_tensor`,
with the reconstruction modelled from the spec (`kruskal_to_tensor` is an
external import). -/
def randRecError (B : Backend) (t : TensorQ) (factors : List Mat) (normT : ℚ) : ℚ :=
  B.sqrtFn (((allIdx t.shape).map
    (fun ix => (t.entry ix - kruskal_to_tensor factors ix) ^ 2)).sum) / normT

/-- One sampled mode update (lines 402-417). -/
def randModeUpdate (B : Backend) (t : TensorQ) (n_samples : ℕ)
    (st : List Mat × ℕ) (mode : ℕ) : List Mat × ℕ :=
  let s := sample_khatri_rao B st.2 st.1 n_samples (some mode) false
  let kr_prod := s.1
  let sampled_unfolding := sampledUnfolding t mode s.2.1 n_samples
  let pseudo_inverse := dotM (transposeM kr_prod) kr_prod
  let factor0 := dotM (transposeM kr_prod) sampled_unfolding
  let factor := transposeM (B.solve pseudo_inverse factor0)
  (st.1.set mode factor, s.2.2.2)

/-- State of the `randomised_parafac` loop: factors, error trace, best error
so far, stagnation counter, generator counter, completed iterations. -/
structure RandState where
  factors : List Mat
  recErrors : List ℚ
  minError : ℚ
  stagnation : ℤ
  ctr : ℕ
  iters : ℕ

/-- The fuel-indexed loop of `randomised_parafac` (lines 401-437): the mode
sweep samples a Khatri-Rao product per mode; when `max_stagnation or tol`
is truthy the error is appended and the stagnation counter updated, and
from the third iteration onward (`iteration > 1`) either the tolerance or
the stagnation rule may break. -/
def randomisedGo (B : Backend) (t : TensorQ) (n_samples : ℕ)
    (tol : ℚ) (max_stagnation : ℤ) (normT : ℚ) : ℕ → RandState → RandState
  | 0, st => st
  | fuel + 1, st =>
    let swept := (List.range (ndimT t)).foldl
      (fun p mode => randModeUpdate B t n_samples p mode) (st.factors, st.ctr)
    if max_stagnation ≠ 0 ∨ tol ≠ 0 then
      let rec_error := randRecError B t swept.1 normT
      let reset := st.minError = 0 ∨ rec_error < st.minError
      let minError' := if reset then rec_error else st.minError
      let stagnation' := (if reset then (-1 : ℤ) else st.stagnation) + 1
      let errs2 := st.recErrors ++ [rec_error]
      if st.iters > 1 ∧
          ((tol ≠ 0 ∧
            |errs2.getD (errs2.length - 2) 0 - errs2.getD (errs2.length - 1) 0| < tol)
           ∨ (stagnation' ≠ 0 ∧ stagnation' > max_stagnation)) then
        { factors := swept.1, recErrors := errs2, minError := minError',
          stagnation := stagnation', ctr := swept.2, iters := st.iters + 1 }
      else
        randomisedGo B t n_samples tol max_stagnation normT fuel
          { factors := swept.1, recErrors := errs2, minError := minError',
            stagnation := stagnation', ctr := swept.2, iters := st.iters + 1 }
    else
      randomisedGo B t n_samples tol max_stagnation normT fuel
        { st with factors := swept.1, ctr := swept.2, iters := st.iters + 1 }

/-- `randomised_parafac` (lines 357-439): initialization, sampled ALS loop,
and return of the factor list alone. -/
def randomised_parafac (B : Backend) (t : TensorQ) (rank n_samples n_iter_max : ℕ)
    (init svd : String) (tol : ℚ) (max_stagnation : ℤ) :
    Except String (List Mat) := do
  let factors ← initialize_factors B t rank init svd false
  let normT := B.sqrtFn (sumSqT t)
  let res := randomisedGo B t n_samples tol max_stagnation normT n_iter_max
    { factors := factors, recErrors := [], minError := 0, stagnation := 0,
      ctr := 0, iters := 0 }
  return res.factors

theorem parafacGo_append_only (B : Backend) (tensor : TensorQ) (rank : ℕ)
    (nn : Bool) (orth : ℕ) (normT tol : ℚ) (htol : tol ≠ 0) :
    ∀ (fuel t : ℕ) (fs : List Mat) (errs : List ℚ),
      ∃ tail,
        (parafacGo B tensor rank nn orth tol normT fuel t fs errs).2.1
          = errs ++ tail
        ∧ (parafacGo B tensor rank nn orth tol normT fuel t fs errs).2.2
          = t + tail.length := by
  intro fuel
  induction fuel with
  | zero => intro t fs errs; exact ⟨[], by simp [parafacGo]⟩
  | succ n ih =>
    intro t fs errs
    rw [parafacGo]
    simp only [if_pos htol]
    split
    · exact ⟨[(outerIteration B tensor rank nn orth normT t fs).2], by simp⟩
    · rcases ih (t + 1) (outerIteration B tensor rank nn orth normT t fs).1
        (errs ++ [(outerIteration B tensor rank nn orth normT t fs).2]) with ⟨tl, h1, h2⟩
      refine ⟨(outerIteration B tensor rank nn orth normT t fs).2 :: tl, ?_, ?_⟩
      · rw [h1, List.append_assoc]
        rfl
      · rw [h2]
        simp
        omega
  
theorem randomisedGo_append_only (B : Backend) (t : TensorQ) (n_samples : ℕ)
    (tol : ℚ) (max_stagnation : ℤ) (normT : ℚ) (htol : tol ≠ 0) :
    ∀ (fuel : ℕ) (st : RandState),
      ∃ tail,
        (randomisedGo B t n_samples tol max_stagnation normT fuel st).recErrors
          = st.recErrors ++ tail
        ∧ (randomisedGo B t n_samples tol max_stagnation normT fuel st).iters
          = st.iters + tail.length := by
  intro fuel
  induction fuel with
  | zero => intro st; exact ⟨[], by simp [randomisedGo]⟩
  | succ n ih =>
    intro st
    rw [randomisedGo]
    simp only [if_pos (Or.inr htol)]
    split
    · split
      · exact ⟨[randRecError B t ((List.range (ndimT t)).foldl
          (fun p mode => randModeUpdate B t n_samples p mode)
          (st.factors, st.ctr)).1 normT], by simp⟩
      · rcases ih _ with ⟨tl, h1, h2⟩
        refine ⟨randRecError B t ((List.range (ndimT t)).foldl
            (fun p mode => randModeUpdate B t n_samples p mode)
            (st.factors, st.ctr)).1 normT :: tl, ?_, ?_⟩
        · rw [h1]
          simp [List.append_assoc]
        · rw [h2]
          simp
          omega
    · split
      · exact ⟨[randRecError B t ((List.range (ndimT t)).foldl
          (fun p mode => randModeUpdate B t n_samples p mode)
          (st.factors, st.ctr)).1 normT], by simp⟩
      · rcases ih _ with ⟨tl, h1, h2⟩
        refine ⟨randRecError B t ((List.range (ndimT t)).foldl
            (fun p mode => randModeUpdate B t n_samples p mode)
            (st.factors, st.ctr)).1 normT :: tl, ?_, ?_⟩
        · rw [h1]
          simp [List.append_assoc]
        · rw [h2]
          simp
          omega

/-- C8: with a positive tolerance, the error trace is append-only —
whatever state a run starts from, the trace of the result extends it — and
receives exactly one entry per completed outer iteration (so a run started
with an empty trace and counter `0` ends with exactly as many entries as
completed iterations), both in the plain ALS loop shared by `parafac` /
`non_negative_parafac` and in the randomised solver; and `parafac` returns
the trace if and only if the caller sets `return_errors`. -/
theorem error_trace_discipline (B : Backend) (tensor : TensorQ)
    (rank n_samples : ℕ) (nn : Bool) (orth : ℕ) (normT tol : ℚ)
    (max_stagnation : ℤ) (htol : 0 < tol) :
    (∀ (fuel t : ℕ) (fs : List Mat) (errs : List ℚ),
      ∃ tail,
        (parafacGo B tensor rank nn orth tol normT fuel t fs errs).2.1 = errs ++ tail
        ∧ (parafacGo B tensor rank nn orth tol normT fuel t fs errs).2.2
            = t + tail.length)
    ∧ (∀ (fuel : ℕ) (st : RandState),
        ∃ tail,
          (randomisedGo B tensor n_samples tol max_stagnation normT fuel st).recErrors
            = st.recErrors ++ tail
          ∧ (randomisedGo B tensor n_samples tol max_stagnation normT fuel st).iters
            = st.iters + tail.length)
    ∧ (∀ (rank2 n_iter_max : ℕ) (init svd : String) (orth2 : ℕ) (nn2 : Bool),
        returnsTrace (parafac B tensor rank2 n_iter_max init svd tol orth2 false nn2)
          = false
        ∧ (isOkE (parafac B tensor rank2 n_iter_max init svd tol orth2 true nn2)
              = true →
            returnsTrace (parafac B tensor rank2 n_iter_max init svd tol orth2 true nn2)
              = true)) := by
  refine ⟨parafacGo_append_only B tensor rank nn orth normT tol (ne_of_gt htol),
    randomisedGo_append_only B tensor n_samples tol max_stagnation normT
      (ne_of_gt htol), ?_⟩
  intro rank2 n_iter_max init svd orth2 nn2
  constructor
  · cases h : initialize_factors B tensor rank2 init svd nn2 with
    | error e =>
      rw [show parafac B tensor rank2 n_iter_max init svd tol orth2 false nn2
          = Except.error e from by simp only [parafac, h]; rfl]
      rfl
    | ok fs =>
      rw [show parafac B tensor rank2 n_iter_max init svd tol orth2 false nn2
          = Except.ok (ParafacResult.onlyFactors
              (parafacGo B tensor rank2 nn2 orth2 tol (B.sqrtFn (sumSqT tensor))
                n_iter_max 0 fs []).1) from by simp only [parafac, h]; rfl]
      rfl
  · intro hok
    cases h : initialize_factors B tensor rank2 init svd nn2 with
    | error e =>
      exfalso
      rw [show parafac B tensor rank2 n_iter_max init svd tol orth2 true nn2
          = Except.error e from by simp only [parafac, h]; rfl] at hok
      simp [isOkE] at hok
    | ok fs =>
      rw [show parafac B tensor rank2 n_iter_max init svd tol orth2 true nn2
          = Except.ok (ParafacResult.withErrors
              (parafacGo B tensor rank2 nn2 orth2 tol (B.sqrtFn (sumSqT tensor))
                n_iter_max 0 fs []).1
              (parafacGo B tensor rank2 nn2 orth2 tol (B.sqrtFn (sumSqT tensor))
                n_iter_max 0 fs []).2.1) from by simp only [parafac, h]; rfl]
      rfl

theorem error_trace_discipline_witness :
    ((0 : ℚ) < 1)
    ∧ (∃ tail,
        (parafacGo stubBackend ⟨[2], fun _ => 1⟩ 1 true 0 1 2 2 0 [[[1], [1]]] []).2.1
          = [] ++ tail
        ∧ (parafacGo stubBackend ⟨[2], fun _ => 1⟩ 1 true 0 1 2 2 0
            [[[1], [1]]] []).2.2 = 0 + tail.length) :=
  ⟨by decide,
    (error_trace_discipline stubBackend ⟨[2], fun _ => 1⟩ 1 1 true 0 2 1 0
      (by decide)).1 2 0 [[[1], [1]]] []⟩

/-! ### PARAFAC2 -/

/-- numpy primitives consumed directly by `parafac2`
(`np.linalg.svd/eigh/qr/pinv`), external to this module. -/
structure NpBackend where
  /-- `np.linalg.svd(M, full_matrices=False) = (U, S, V)`. -/
  svd : Mat → Mat × List ℚ × Mat
  /-- `np.linalg.eigh(M) = (eigenvalues, eigenvectors)`. -/
  eigh : Mat → List ℚ × Mat
  /-- `np.linalg.qr(M, mode='r')`. -/
  qrR : Mat → Mat
  /-- `np.linalg.pinv(M)`. -/
  pinv : Mat → Mat

/-- Insert index `i` into an index list sorted by ascending `w`-value. -/
def insertSorted (w : List ℚ) (i : ℕ) : List ℕ → List ℕ
  | [] => [i]
  | j :: t => if w.getD i 0 < w.getD j 0 then i :: j :: t else j :: insertSorted w i t

/-- `np.argsort(w)`: indices sorted by ascending value. -/
def argsortIdx (w : List ℚ) : List ℕ :=
  (List.range w.length).foldr (insertSorted w) []

/-- `M[:, idxs]`: select the listed columns. -/
def selectCols (M : Mat) (idxs : List ℕ) : Mat :=
  M.map (fun row => idxs.map (fun j => row.getD j 0))

/-- Lines 497-499: `A = eigh(sum_i Xi.T @ Xi)`, then the eigenvector
columns sorted by ascending eigenvalue, keeping the last `r`. -/
def parafac2InitA (Np : NpBackend) (X : List Mat) (r : ℕ) : Mat :=
  let S := match X.map (fun Xi => dotM (transposeM Xi) Xi) with
    | [] => []
    | g :: t => t.foldl addM g
  let e := Np.eigh S
  let perm := argsortIdx e.1
  selectCols e.2 (perm.drop (perm.length - r))

/-- Line 503: `H[i] = qr(Xi, mode='r')` for tall slices, else `Xi`. -/
def parafac2H (Np : NpBackend) (X : List Mat) : List Mat :=
  X.map (fun Xi => if numCols Xi < Xi.length then Np.qrR Xi else Xi)

/-- PARAFAC2 loop state: the shared factors, the three coupling Gram
matrices, and the current residual error. -/
structure P2State where
  F : Mat
  A : Mat
  D : Mat
  G0 : Mat
  G1 : Mat
  G2 : Mat
  err : ℚ

/-- Lines 491-507: `F = identity(r)`, `D = ones(m, r)`, `A` from the
eigendecomposition, `G = [identity, identity, ones*m]`, `err = 1`. -/
def parafac2InitState (Np : NpBackend) (X : List Mat) (r : ℕ) : P2State :=
  { F := identityM r, A := parafac2InitA Np X r, D := onesM X.length r,
    G0 := identityM r, G1 := identityM r,
    G2 := scaleM (X.length : ℚ) (onesM r r), err := 1 }

/-- `reshape(transpose(T, (0, 2, 1)), (-1, T.shape[1]))`: vertical stack of
the transposed slices. -/
def stackT021 (T : List Mat) : Mat := (T.map transposeM).foldr (· ++ ·) []

/-- `reshape(transpose(T, (0, 1, 2)), (-1, T.shape[2]))`: vertical stack of
the slices. -/
def stackT012 (T : List Mat) : Mat := T.foldr (· ++ ·) []

/-- `reshape(transpose(T, (2, 1, 0)), (-1, T.shape[0]))`: row `(j, q)`
holds `T[i][q][j]` over the slices `i`. -/
def stackT210 (T : List Mat) (m rdim Jdim : ℕ) : Mat :=
  (List.range Jdim).flatMap (fun j => (List.range rdim).map (fun q =>
    (List.range m).map (fun i => ((T.getD i []).getD q []).getD j 0)))

/-- One PARAFAC2 iteration (lines 510-551): Procrustes rotations `P`,
compressed slices `T`, the three normal-equation updates of `F`, `A`, `D`
(each Gram matrix refreshed right after its factor), and the residual
error computed from the updated state. -/
def parafac2Step (Np : NpBackend) (m : ℕ) (H : List Mat) (st : P2State) : P2State :=
  let P := (List.range m).map (fun i =>
    let S := Np.svd (dotM (rowScaleM st.F (st.D.getD i []))
      (transposeM (dotM (H.getD i []) st.A)))
    transposeM (dotM S.1 S.2.2))
  let T := (List.range m).map (fun i =>
    dotM (transposeM (P.getD i [])) (H.getD i []))
  let rdim := (T.headD []).length
  let Jdim := numCols (T.headD [])
  let F := dotM (dotM (transposeM (stackT021 T)) (KhatriRao2 st.D st.A))
    (Np.pinv (hadamardM st.G2 st.G1))
  let G0 := dotM (transposeM F) F
  let A := dotM (dotM (transposeM (stackT012 T)) (KhatriRao2 st.D F))
    (Np.pinv (hadamardM st.G2 G0))
  let G1 := dotM (transposeM A) A
  let D := dotM (dotM (transposeM (stackT210 T m rdim Jdim)) (KhatriRao2 A F))
    (Np.pinv (hadamardM G1 G0))
  let G2 := dotM (transposeM D) D
  let err := ((List.range m).map (fun i =>
    sumSqM (subM (H.getD i [])
      (dotM (rowScaleM (dotM (P.getD i []) F) (D.getD i [])) (transposeM A))))).sum
  { F := F, A := A, D := D, G0 := G0, G1 := G1, G2 := G2, err := err }

/-- The `while not conv and niters < 100` loop (lines 508-551), fuel-indexed
with fuel `100 - niters`: each pass runs one step, increments `niters`, and
exits when `|err_old - err| < tol * err_old`. -/
def parafac2Go (Np : NpBackend) (m : ℕ) (H : List Mat) (tol : ℚ) :
    ℕ → ℕ → P2State → P2State × ℕ
  | 0, niters, st => (st, niters)
  | fuel + 1, niters, st =>
    let st' := parafac2Step Np m H st
    if |st.err - st'.err| < tol * st.err then (st', niters + 1)
    else parafac2Go Np m H tol fuel (niters + 1) st'

/-- `parafac2` (lines 479-558): the SVD-registry check, initialization, the
capped ALS loop, and the final re-expression of `F` per slice against the
original (uncompressed) slices.  Returns the per-slice `F` list, `D`, `A`,
plus the number of iterations performed (for the termination theorems). -/
def parafac2 (tlB : Backend) (Np : NpBackend) (X : List Mat) (r : ℕ)
    (tol : ℚ) (svd : String) : Except String (List Mat × Mat × Mat × ℕ) :=
  match tlB.svdFuns.lookup svd with
  | none => .error (svdErrMsg svd tlB)
  | some _ =>
    let m := X.length
    let H := parafac2H Np X
    let res := parafac2Go Np m H tol 100 0 (parafac2InitState Np X r)
    let Pfin := (List.range m).map (fun i =>
      let S := Np.svd (dotM (rowScaleM res.1.F (res.1.D.getD i []))
        (transposeM (dotM (X.getD i []) res.1.A)))
      transposeM (dotM S.1 S.2.2))
    let Ffin := (List.range m).map (fun i => dotM (Pfin.getD i []) res.1.F)
    .ok (Ffin, res.1.D, res.1.A, res.2)

/-- The PARAFAC2 state after `k` (break-free) iterations. -/
def p2StateAfter (Np : NpBackend) (m : ℕ) (H : List Mat) (st0 : P2State) : ℕ → P2State
  | 0 => st0
  | k + 1 => parafac2Step Np m H (p2StateAfter Np m H st0 k)

/-- The error after `k` iterations; `k = 0` is the initial sentinel `err = 1`. -/
def p2ErrAt (Np : NpBackend) (m : ℕ) (H : List Mat) (st0 : P2State) (k : ℕ) : ℚ :=
  (p2StateAfter Np m H st0 k).err

/-- The convergence test consulted after iteration `k` (line 550):
`|err_old - err| < tol * err_old` with `err_old = p2ErrAt (k-1)`. -/
def p2ConvAt (Np : NpBackend) (m : ℕ) (H : List Mat) (st0 : P2State)
    (tol : ℚ) (k : ℕ) : Prop :=
  |p2ErrAt Np m H st0 (k - 1) - p2ErrAt Np m H st0 k|
    < tol * p2ErrAt Np m H st0 (k - 1)

/-- Iterations performed by a `parafac2` run (`0` on a configuration error). -/
def p2NitersOfE : Except String (List Mat × Mat × Mat × ℕ) → ℕ
  | .ok r => r.2.2.2
  | .error _ => 0

theorem parafac2Go_char (Np : NpBackend) (m : ℕ) (H : List Mat) (tol : ℚ)
    (st0 : P2State) :
    ∀ (fuel t : ℕ),
      (∀ s, 1 ≤ s → s ≤ t → ¬ p2ConvAt Np m H st0 tol s) →
      (∃ u, t < u ∧ u ≤ t + fuel ∧ p2ConvAt Np m H st0 tol u
        ∧ (∀ s, 1 ≤ s → s < u → ¬ p2ConvAt Np m H st0 tol s)
        ∧ parafac2Go Np m H tol fuel t (p2StateAfter Np m H st0 t)
            = (p2StateAfter Np m H st0 u, u))
      ∨ ((∀ s, 1 ≤ s → s ≤ t + fuel → ¬ p2ConvAt Np m H st0 tol s)
        ∧ parafac2Go Np m H tol fuel t (p2StateAfter Np m H st0 t)
            = (p2StateAfter Np m H st0 (t + fuel), t + fuel)) := by
  intro fuel
  induction fuel with
  | zero =>
    intro t hprior
    right
    exact ⟨by simpa using hprior, rfl⟩
  | succ n ih =>
    intro t hprior
    rw [parafac2Go]
    have hst : parafac2Step Np m H (p2StateAfter Np m H st0 t)
        = p2StateAfter Np m H st0 (t + 1) := rfl
    have hcond : (|(p2StateAfter Np m H st0 t).err
          - (parafac2Step Np m H (p2StateAfter Np m H st0 t)).err|
          < tol * (p2StateAfter Np m H st0 t).err)
        ↔ p2ConvAt Np m H st0 tol (t + 1) := by
      unfold p2ConvAt p2ErrAt
      rw [Nat.add_sub_cancel, hst]
    by_cases hc : p2ConvAt Np m H st0 tol (t + 1)
    · rw [if_pos (hcond.mpr hc)]
      left
      refine ⟨t + 1, by omega, by omega, hc, ?_, by rw [hst]⟩
      intro s h1 h2
      exact hprior s h1 (by omega)
    · rw [if_neg (fun h => hc (hcond.mp h))]
      have hprior' : ∀ s, 1 ≤ s → s ≤ t + 1 → ¬ p2ConvAt Np m H st0 tol s := by
        intro s h1 h2
        rcases Nat.lt_succ_iff_lt_or_eq.mp (Nat.lt_succ_of_le h2) with h | h
        · exact hprior s h1 (by omega)
        · subst h; exact hc
      rw [hst]
      rcases ih (t + 1) hprior' with ⟨u, h1, h2, h3, h4, h5⟩ | ⟨h1, h2⟩
      · left
        exact ⟨u, by omega, by omega, h3, h4, h5⟩
      · right
        refine ⟨by intro s hs1 hs2; exact h1 s hs1 (by omega), ?_⟩
        have harith : t + 1 + n = t + (n + 1) := by omega
        rw [harith] at h2
        exact h2

/-- Concrete numpy-primitive stubs for instantiating the PARAFAC2
theorems. -/
def stubNp : NpBackend where
  svd := fun M => (M, [], M)
  eigh := fun _ => ([0], [[1]])
  qrR := fun M => M
  pinv := fun M => M

/-- C9 (amended): every `parafac2` run performs at most 100 iterations (the
cap is the literal 100 of line 510 — no parameter can change it), and a
successful run exits at the first iteration `u` at which
`|err_old - err| < tol * err_old`, where the error before the first
iteration is the initialization sentinel `err = 1` (line 507) — or runs the
full 100 iterations if that never happens. -/
theorem parafac2_iteration_cap (tlB : Backend) (Np : NpBackend) (X : List Mat)
    (r : ℕ) (tol : ℚ) (svd : String) :
    p2NitersOfE (parafac2 tlB Np X r tol svd) ≤ 100
    ∧ ((tlB.svdFuns.lookup svd).isSome = true →
      (∃ u, 1 ≤ u ∧ u ≤ 100
        ∧ p2ConvAt Np X.length (parafac2H Np X) (parafac2InitState Np X r) tol u
        ∧ (∀ s, 1 ≤ s → s < u →
            ¬ p2ConvAt Np X.length (parafac2H Np X) (parafac2InitState Np X r) tol s)
        ∧ p2NitersOfE (parafac2 tlB Np X r tol svd) = u)
      ∨ ((∀ s, 1 ≤ s → s ≤ 100 →
            ¬ p2ConvAt Np X.length (parafac2H Np X) (parafac2InitState Np X r) tol s)
        ∧ p2NitersOfE (parafac2 tlB Np X r tol svd) = 100)) := by
  cases hl : tlB.svdFuns.lookup svd with
  | none =>
    have hz : p2NitersOfE (parafac2 tlB Np X r tol svd) = 0 := by
      simp only [parafac2, hl]
      rfl
    constructor
    · rw [hz]; omega
    · intro hsome
      simp at hsome
  | some f =>
    have hrun : p2NitersOfE (parafac2 tlB Np X r tol svd)
        = (parafac2Go Np X.length (parafac2H Np X) tol 100 0
            (parafac2InitState Np X r)).2 := by
      simp only [parafac2, hl]
      rfl
    have hchar := parafac2Go_char Np X.length (parafac2H Np X) tol
      (parafac2InitState Np X r) 100 0 (by intro s h1 h2; omega)
    have hinit : p2StateAfter Np X.length (parafac2H Np X)
        (parafac2InitState Np X r) 0 = parafac2InitState Np X r := rfl
    rw [hinit] at hchar
    rcases hchar with ⟨u, h1, h2, h3, h4, h5⟩ | ⟨h1, h2⟩
    · have hniters : p2NitersOfE (parafac2 tlB Np X r tol svd) = u := by
        rw [hrun, h5]
      constructor
      · rw [hniters]; omega
      · intro _
        left
        exact ⟨u, by omega, by omega, h3, h4, hniters⟩
    · have hniters : p2NitersOfE (parafac2 tlB Np X r tol svd) = 100 := by
        rw [hrun, h2]
      constructor
      · rw [hniters]
      · intro _
        right
        exact ⟨by intro s hs1 hs2; exact h1 s hs1 (by omega), hniters⟩

/-- The literal reading of C9, as stated: runs are capped at 100
iterations, and a successful run that exits before the cap does so because
the error change between two consecutive iterations (so at least two
iterations, with real — non-sentinel — errors on both sides) satisfied the
relative-tolerance test at the exit. -/
def C9ClaimStatement : Prop :=
  ∀ (tlB : Backend) (Np : NpBackend) (X : List Mat) (r : ℕ) (tol : ℚ)
    (svd : String),
    p2NitersOfE (parafac2 tlB Np X r tol svd) ≤ 100
    ∧ (isOkE (parafac2 tlB Np X r tol svd) = true →
       p2NitersOfE (parafac2 tlB Np X r tol svd) < 100 →
       2 ≤ p2NitersOfE (parafac2 tlB Np X r tol svd)
       ∧ p2ConvAt Np X.length (parafac2H Np X) (parafac2InitState Np X r) tol
           (p2NitersOfE (parafac2 tlB Np X r tol svd)))

/-- C9 (counterexample): on the single zero 1×1 slice with `tol = 2`, the
first iteration's error `0` already satisfies
`|err_old - err| < tol * err_old` against the sentinel `err_old = 1`, so
the loop exits after one iteration — before any two consecutive iteration
errors exist — refuting the claim as stated. -/
theorem parafac2_sentinel_exit_counterexample : ¬ C9ClaimStatement := by
  intro h
  have hl : stubBackend.svdFuns.lookup "numpy_svd"
      = some (fun M _ => (M, [], M)) := rfl
  have herr0 : (parafac2InitState stubNp [[[0]]] 1).err = 1 := rfl
  have hstep : (parafac2Step stubNp 1 (parafac2H stubNp [[[0]]])
      (parafac2InitState stubNp [[[0]]] 1)).err = 0 := by
    norm_num [parafac2Step, parafac2H, parafac2InitState, parafac2InitA, stubNp,
      dotM, dotL, transposeM, numCols, rowScaleM, zipMul, KhatriRao2, hadamardM,
      stackT021, stackT012, stackT210, sumSqM, subM, addM, selectCols, argsortIdx,
      insertSorted, identityM, onesM, scaleM, List.range_succ, List.range_zero]
  have hgo : parafac2Go stubNp 1 (parafac2H stubNp [[[0]]]) 2 100 0
      (parafac2InitState stubNp [[[0]]] 1)
      = (parafac2Step stubNp 1 (parafac2H stubNp [[[0]]])
          (parafac2InitState stubNp [[[0]]] 1), 1) := by
    rw [show (100 : ℕ) = 99 + 1 from rfl, parafac2Go]
    rw [if_pos]
    rw [herr0, hstep]
    norm_num
  have hn : p2NitersOfE (parafac2 stubBackend stubNp [[[0]]] 1 2 "numpy_svd")
      = (parafac2Go stubNp 1 (parafac2H stubNp [[[0]]]) 2 100 0
          (parafac2InitState stubNp [[[0]]] 1)).2 := by
    simp only [parafac2, hl]
    rfl
  rw [hgo] at hn
  have hok : isOkE (parafac2 stubBackend stubNp [[[0]]] 1 2 "numpy_svd") = true := by
    simp only [parafac2, hl]
    rfl
  have h2 := ((h stubBackend stubNp [[[0]]] 1 2 "numpy_svd").2 hok
    (by rw [hn]; omega)).1
  rw [hn] at h2
  omega

theorem parafac2_iteration_cap_witness :
    p2NitersOfE (parafac2 stubBackend stubNp [[[0]]] 1 2 "numpy_svd") ≤ 100
    ∧ (((stubBackend.svdFuns.lookup "numpy_svd").isSome = true) →
      (∃ u, 1 ≤ u ∧ u ≤ 100
        ∧ p2ConvAt stubNp ([[[0]]] : List Mat).length (parafac2H stubNp [[[0]]])
            (parafac2InitState stubNp [[[0]]] 1) 2 u
        ∧ (∀ s, 1 ≤ s → s < u →
            ¬ p2ConvAt stubNp ([[[0]]] : List Mat).length (parafac2H stubNp [[[0]]])
              (parafac2InitState stubNp [[[0]]] 1) 2 s)
        ∧ p2NitersOfE (parafac2 stubBackend stubNp [[[0]]] 1 2 "numpy_svd") = u)
      ∨ ((∀ s, 1 ≤ s → s ≤ 100 →
            ¬ p2ConvAt stubNp ([[[0]]] : List Mat).length (parafac2H stubNp [[[0]]])
              (parafac2InitState stubNp [[[0]]] 1) 2 s)
        ∧ p2NitersOfE (parafac2 stubBackend stubNp [[[0]]] 1 2 "numpy_svd") = 100)) :=
  parafac2_iteration_cap stubBackend stubNp [[[0]]] 1 2 "numpy_svd"
